import Mathlib

/-!
Verification development for the archrypto encryption/archive pipeline
(`crates/archrypto_core/src/lib.rs`).

The Rust core is shallowly embedded as follows.

* Byte strings are `List Nat`, byte-valid when every element is below 256.
* The filesystem is an explicit association list from paths to nodes
  (file with content, directory, or special node); every top-level
  operation threads the filesystem state and an event trace recording
  file reads, file writes and directory creations.
* The external cryptographic crates (`aes_gcm`, `rsa`) and the `zip`
  container crate are not part of this repository; they are modelled by
  concrete executable functions that satisfy the contracts the spec
  states for them (authenticated encryption whose decryption succeeds
  exactly on the untampered ciphertext under the sealing key, key
  wrapping that unwraps exactly under the matching private key, and an
  injective entry serialization).  Each such model carries a doc
  comment naming the crate it stands for.
* Rust panics (out-of-bounds indexing, `GenericArray::clone_from_slice`
  on a slice of the wrong length) are a distinguished `panicked`
  outcome, kept apart from `Err` returns.
-/

namespace Archrypto

/-- Byte strings are lists of natural numbers; byte-valid when below 256. -/
abbrev Bytes := List Nat

/-- Every element of the list is a real byte value. -/
def bytesOk (l : Bytes) : Bool := l.all (fun b => b < 256)

/-- The byte at an index, 0 past the end (used to model Rust slice reads
whose bounds have already been checked on the taken branch). -/
def nthByte : Bytes → Nat → Nat
  | [], _ => 0
  | b :: _, 0 => b
  | _ :: rest, n + 1 => nthByte rest n

/-- Sum of all bytes of a list. -/
def bytesSum (l : Bytes) : Nat := l.foldl (fun a b => a + b) 0

/-- Map a function of (index, byte) over a list, starting at a given index. -/
def mapEnum (f : Nat → Nat → Nat) : Nat → Bytes → Bytes
  | _, [] => []
  | i, b :: rest => f i b :: mapEnum f (i + 1) rest

/-- Model of the external aes_gcm crate: the position-dependent mask byte
derived from the 256-bit content key and the 96-bit nonce. -/
def maskByte (key nonce : Bytes) (i : Nat) : Nat :=
  (bytesSum key + 3 * bytesSum nonce + i) % 256

/-- Masking one byte with the keystream (always below 256). -/
def mixByte (key nonce : Bytes) (i b : Nat) : Nat := (b + maskByte key nonce i) % 256

/-- Inverse of `mixByte` on byte-valid input. -/
def unmixByte (key nonce : Bytes) (i b : Nat) : Nat :=
  (b + (256 - maskByte key nonce i)) % 256

/-- Model of the external aes_gcm crate's `Aes256Gcm::encrypt`: AEAD
encryption of the whole buffer in one call.  The ciphertext is the
masked body followed by a same-length authentication tag; every tag
byte is a keyed, position-wise injective function of the corresponding
body byte, so that the mandatory tag check of `decrypt` detects any
single-byte change anywhere in the ciphertext. -/
def aeadEncrypt (key nonce pt : Bytes) : Bytes :=
  let body := mapEnum (mixByte key nonce) 0 pt
  body ++ mapEnum (mixByte key nonce) 0 body

/-- Model of the external aes_gcm crate's `Aes256Gcm::decrypt`: splits the
buffer into body and tag, recomputes the tag under the supplied key and
nonce, and fails (returns `none`, surfaced as an authentication error by
the caller) unless it matches exactly. -/
def aeadDecrypt (key nonce ct : Bytes) : Option Bytes :=
  if ct.length % 2 = 0 then
    let n := ct.length / 2
    let body := ct.take n
    if ct.drop n = mapEnum (mixByte key nonce) 0 body then
      some (mapEnum (unmixByte key nonce) 0 body)
    else none
  else none

/-- Model of the external rsa crate's PKCS#1 v1.5 public-key encryption
(key wrapping): the wrapped key records the identity of the wrapping
public key followed by the wrapped bytes. -/
def rsa_encrypt (keyId : Nat) (msg : Bytes) : Bytes := keyId :: msg

/-- Model of the external rsa crate's PKCS#1 v1.5 private-key decryption:
unwrapping succeeds exactly when the private key matches the public key
that produced the blob (padding/format mismatch otherwise). -/
def rsa_decrypt (keyId : Nat) (wrapped : Bytes) : Option Bytes :=
  match wrapped with
  | [] => none
  | k :: rest => if k = keyId then some rest else none

/-- Model of `RsaPublicKey::from_public_key_pem`: a public-key PEM file is
the two-byte blob `[1, keyId]`. -/
def parse_public_key_pem : Bytes → Option Nat
  | [1, k] => some k
  | _ => none

/-- Model of `RsaPrivateKey::from_pkcs8_pem`: a private-key PEM file is
the two-byte blob `[2, keyId]`.  A key pair is valid when the two files
carry the same key identity. -/
def parse_private_key_pem : Bytes → Option Nat
  | [2, k] => some k
  | _ => none

/-- The `as u16` cast applied to the wrapped key length in
`encrypt_file_with_public_key` (truncation modulo 2^16). -/
def as_u16 (n : Nat) : Nat := n % 65536

/-- `u16::to_be_bytes`: the two-byte big-endian encoding written after the
nonce. -/
def be16 (n : Nat) : Bytes := [n / 256 % 256, n % 256]

/-- `u16::from_be_bytes`: decoding of the wrapped-key-length field. -/
def de16 (hi lo : Nat) : Nat := 256 * hi + lo

/-- Fuelled worker for `encodeLen` (structural recursion on the fuel, so
that the kernel can evaluate it; the fuel bound is always sufficient
because the value shrinks by a factor of 128 each step). -/
def encodeLenAux : Nat → Nat → Bytes
  | 0, n => [n % 128]
  | fuel + 1, n =>
    if n < 128 then [n]
    else (n % 128 + 128) :: encodeLenAux fuel (n / 128)

/-- Self-delimiting length encoding used by the zip model (base-128 with
continuation bit, so every emitted byte is below 256). -/
def encodeLen (n : Nat) : Bytes := encodeLenAux n n

/-- Decoder matching `encodeLen`; returns the value and the remaining bytes. -/
def decodeLen : Bytes → Option (Nat × Bytes)
  | [] => none
  | b :: rest =>
    if b < 128 then some (b, rest)
    else
      match decodeLen rest with
      | some (m, r) => some (b - 128 + 128 * m, r)
      | none => none

/-- A packed archive entry: ordered name string and content bytes.
Directory entries are distinguished by a trailing path separator and
carry no content. -/
structure ZEntry where
  name : String
  content : Bytes
deriving DecidableEq

/-- Bytes of an entry name (ASCII names only are ever produced). -/
def strBytes (s : String) : Bytes := s.toList.map Char.toNat

/-- Inverse of `strBytes` on byte-valid input. -/
def bytesStr (l : Bytes) : String := String.mk (l.map Char.ofNat)

/-- Model of the external zip crate, encode side: one entry is serialized
as length-prefixed name bytes followed by length-prefixed content. -/
def serializeEntry (e : ZEntry) : Bytes :=
  encodeLen (strBytes e.name).length ++ strBytes e.name ++
    encodeLen e.content.length ++ e.content

/-- Model of the external zip crate: the raw archive is the concatenation
of the serialized entries, in order. -/
def serializeZip : List ZEntry → Bytes
  | [] => []
  | e :: rest => serializeEntry e ++ serializeZip rest

/-- Fuelled parser for the raw archive byte stream (the fuel argument only
bounds the number of entries; `parseZip` supplies enough). -/
def parseZipAux : Nat → Bytes → Option (List ZEntry)
  | _, [] => some []
  | 0, _ :: _ => none
  | fuel + 1, b :: bs =>
    match decodeLen (b :: bs) with
    | none => none
    | some (nlen, r1) =>
      if nlen ≤ r1.length then
        match decodeLen (r1.drop nlen) with
        | none => none
        | some (clen, r2) =>
          if clen ≤ r2.length then
            match parseZipAux fuel (r2.drop clen) with
            | none => none
            | some es => some (⟨bytesStr (r1.take nlen), r2.take clen⟩ :: es)
          else none
      else none

/-- Model of the external zip crate, decode side (`ZipArchive::new` plus
iteration `by_index`): recovers the ordered entry list, failing on a
malformed stream. -/
def parseZip (b : Bytes) : Option (List ZEntry) := parseZipAux b.length b

/-- A filesystem path: absolute flag plus the list of components
(components are non-empty and contain no separator on well-formed
filesystems). -/
structure PathC where
  abs : Bool
  comps : List String
deriving DecidableEq

/-- A filesystem node: regular file with content, directory, or a special
node (socket, fifo, ...) that is neither. -/
inductive FsNode
  | file (content : Bytes)
  | dir
  | special
deriving DecidableEq

/-- The filesystem state: an association list from paths to nodes.  The
root (empty component list) is always implicitly a directory. -/
structure FS where
  entries : List (PathC × FsNode)
deriving DecidableEq

/-- Node at a path; the roots (absolute and relative) always exist as
directories. -/
def nodeAt (fs : FS) (p : PathC) : Option FsNode :=
  if p.comps = [] then some .dir
  else (fs.entries.find? (fun e => e.1 == p)).map (fun e => e.2)

/-- Write a node at a path, replacing whatever was there. -/
def FS.set (fs : FS) (p : PathC) (n : FsNode) : FS :=
  ⟨(p, n) :: fs.entries.filter (fun e => !(e.1 == p))⟩

/-- Rust `Path::exists`. -/
def pathExists (fs : FS) (p : PathC) : Bool := (nodeAt fs p).isSome

/-- Rust `Path::parent` (drops the last component). -/
def parentOf (p : PathC) : PathC := ⟨p.abs, p.comps.dropLast⟩

/-- Content of a regular file, if the path is one. -/
def fileContent (fs : FS) (p : PathC) : Option Bytes :=
  match nodeAt fs p with
  | some (.file c) => some c
  | _ => none

/-- Component-list prefix test. -/
def isPfxOf : List String → List String → Bool
  | [], _ => true
  | _ :: _, [] => false
  | a :: as, b :: bs => a == b && isPfxOf as bs

/-- Path ordering: `q` is the same as or an ancestor of `p`. -/
def pathLE (q p : PathC) : Bool := (q.abs == p.abs) && isPfxOf q.comps p.comps

/-- Strict version of `pathLE`. -/
def pathLT (q p : PathC) : Bool := pathLE q p && !(q == p)

/-- Events of the observable I/O trace. -/
inductive FsEvent
  | readF (p : PathC)
  | writeF (p : PathC)
  | mkdir (p : PathC)
deriving DecidableEq

/-- The error taxonomy of the pipeline (the Rust code carries these as
anyhow errors; the constructors follow the spec's taxonomy). -/
inductive ArchError
  | invalidExtension
  | ioError
  | invalidTarget
  | keyParseError
  | malformedContainer
  | keyUnwrapError
  | authenticationFailed
  | zipError
deriving DecidableEq

/-- Outcome of running a fallible Rust function: normal return, `Err`
propagated to the caller, or a panic. -/
inductive RunResult (α : Type)
  | ok (a : α)
  | err (e : ArchError)
  | panicked
deriving DecidableEq

/-- Split a character list at separator characters (keeps empty groups,
like splitting "a//b/" into "a", "", "b", ""). -/
def splitSlashes : List Char → List (List Char)
  | [] => [[]]
  | c :: rest =>
    if c = '/' then [] :: splitSlashes rest
    else
      match splitSlashes rest with
      | [] => [[c]]
      | g :: gs => (c :: g) :: gs

/-- Join character groups with the separator (inverse of `splitSlashes`
on separator-free non-empty groups). -/
def joinSlash : List (List Char) → List Char
  | [] => []
  | [g] => g
  | g :: gs => g ++ '/' :: joinSlash gs

/-- Rust `Path::components` normalization of a path string: split at
separators and discard empty components (collapses duplicate separators
and trailing separators). -/
def comps (s : String) : List String :=
  ((splitSlashes s.toList).filter (fun g => g ≠ [])).map (fun g => String.mk g)

/-- Build an entry-name string from path components (the
`Path::new(&base_name).join(relative_path)` + `to_string_lossy` step of
`compress_files`). -/
def nameOfParts (parts : List String) : String :=
  String.mk (joinSlash (parts.map String.toList))

/-- Last character of a string, scanning the character list. -/
def lastChar : List Char → Option Char
  | [] => none
  | [c] => some c
  | _ :: c :: rest => lastChar (c :: rest)

/-- Rust `file.name().ends_with('/')`: the directory-entry convention. -/
def isDirName (s : String) : Bool :=
  match lastChar s.toList with
  | some c => c = '/'
  | none => false

/-- Does the entry name denote an absolute path (leading separator)? -/
def startsSlash (s : String) : Bool :=
  match s.toList with
  | [] => false
  | c :: _ => c = '/'

/-- Scan for the characters after the last dot (`none` when no dot was
seen). -/
def extCharsAux : List Char → Option (List Char) → Option (List Char)
  | [], acc => acc
  | c :: rest, acc => extCharsAux rest (if c = '.' then some rest else acc)

/-- Rust `Path::extension` on a single file name: the part after the last
dot, except that a leading dot does not start an extension. -/
def extOf (name : String) : Option String :=
  match name.toList with
  | [] => none
  | c0 :: rest =>
    if c0 = '.' then (extCharsAux rest none).map String.mk
    else (extCharsAux (c0 :: rest) none).map String.mk

/-- Rust `Path::extension` of a path: extension of its last component. -/
def pathExtension (p : PathC) : Option String :=
  match p.comps.getLast? with
  | none => none
  | some name => extOf name

/-- The registered container suffix (`const EXTENTION: &str = "acrp"`). -/
def EXTENTION : String := "acrp"

/-- Mirrors `validate_extension`: the raw extension string must equal the
registered suffix exactly (case-sensitively).  The Rust function wraps
the boolean in `Ok`; it never fails. -/
def validate_extension (check_path : PathC) : Bool :=
  pathExtension check_path == some EXTENTION

/-- Base name of a path (`Path::file_name` as a string, defaulting for
the root which has none). -/
def baseNameStr (p : PathC) : String := p.comps.getLastD ""

/-- The path `outputDir/<entry name>` of the spec: the output directory
extended with the entry name's components. -/
def entryPath (outDir : PathC) (name : String) : PathC :=
  ⟨outDir.abs, outDir.comps ++ comps name⟩

/-- Rust `Path::join` of the output directory with an entry name: an
absolute entry name replaces the base entirely. -/
def joinEntry (outDir : PathC) (name : String) : PathC :=
  if startsSlash name then ⟨true, comps name⟩ else entryPath outDir name

/-- One step of `create_dir_all`: walk the component chain from the root,
failing where an existing non-directory node blocks it, creating the
missing directories. -/
def mkdirList (fs : FS) (ab : Bool) (done : List String) : List String → Except ArchError FS
  | [] => .ok fs
  | c :: rest =>
    match nodeAt fs ⟨ab, done ++ [c]⟩ with
    | some .dir => mkdirList fs ab (done ++ [c]) rest
    | some _ => .error .ioError
    | none => mkdirList (fs.set ⟨ab, done ++ [c]⟩ .dir) ab (done ++ [c]) rest

/-- Rust `std::fs::create_dir_all`. -/
def mkdirAll (fs : FS) (p : PathC) : Except ArchError FS :=
  mkdirList fs p.abs [] p.comps

/-- Rust `File::create` (+ writing the full content): requires the parent
to be an existing directory, truncates an existing regular file, fails
on a directory or special node. -/
def createFile (fs : FS) (p : PathC) (content : Bytes) : Except ArchError FS :=
  if p.comps = [] then .error .ioError
  else
    match nodeAt fs (parentOf p) with
    | some .dir =>
      match nodeAt fs p with
      | some .dir => .error .ioError
      | some .special => .error .ioError
      | _ => .ok (fs.set p (.file content))
    | _ => .error .ioError

/-- Appending bytes to an already-open regular file (the successive
`write_all` calls of `encrypt_file_with_public_key`). -/
def appendFile (fs : FS) (p : PathC) (bytes : Bytes) : Except ArchError FS :=
  match nodeAt fs p with
  | some (.file c) => .ok (fs.set p (.file (c ++ bytes)))
  | _ => .error .ioError

/-- All regular files at or below a path, in the file table's listing
order (the model's WalkDir traversal order; the spec leaves the order
implementation-defined but deterministic). -/
def filesUnder (fs : FS) (t : PathC) : List (PathC × Bytes) :=
  fs.entries.filterMap (fun e =>
    match e.2 with
    | .file c => if pathLE t e.1 then some (e.1, c) else none
    | _ => none)

/-- Mirrors `count_files`: WalkDir over one path, counting regular files;
a missing path makes the walk's first entry an error. -/
def count_files (fs : FS) (path : PathC) : Except ArchError Nat :=
  match nodeAt fs path with
  | none => .error .ioError
  | some _ => .ok (filesUnder fs path).length

/-- Mirrors `count_files_in_paths`: total over all targets, first error
propagated. -/
def count_files_in_paths (fs : FS) : List PathC → Except ArchError Nat
  | [] => .ok 0
  | p :: rest =>
    match count_files fs p with
    | .error e => .error e
    | .ok n =>
      match count_files_in_paths fs rest with
      | .error e => .error e
      | .ok m => .ok (n + m)

/-- Entry name for a file found under a directory target: the directory's
base name joined with the path relative to the target
(`strip_prefix` + join in `compress_files`). -/
def dirEntryName (base : String) (t q : PathC) : String :=
  nameOfParts (base :: q.comps.drop t.comps.length)

/-- The zip entries (and read events) one target contributes in
`compress_files`: a file target yields one entry named by its base name;
a directory target yields one entry per file found by the recursive
walk; anything else aborts with the invalid-target error.  A directory
whose base name cannot be taken (the root) yields the
"Failed to get directory name" error. -/
def buildTarget (fs : FS) (t : PathC) : Except ArchError (List ZEntry × List FsEvent) :=
  match nodeAt fs t with
  | some (.file c) =>
    match t.comps.getLast? with
    | some base => .ok ([⟨base, c⟩], [.readF t])
    | none => .error .ioError
  | some .dir =>
    match t.comps.getLast? with
    | none => .error .ioError
    | some base =>
      let fus := filesUnder fs t
      .ok (fus.map (fun q => ⟨dirEntryName base t q.1, q.2⟩),
           fus.map (fun q => FsEvent.readF q.1))
  | some .special => .error .invalidTarget
  | none => .error .invalidTarget

/-- The target loop of `compress_files`: entries of all targets in order,
aborting the whole build at the first bad target. -/
def build_zip_entries (fs : FS) : List PathC → Except ArchError (List ZEntry) × List FsEvent
  | [] => (.ok [], [])
  | t :: rest =>
    match buildTarget fs t with
    | .error e => (.error e, [])
    | .ok (es, evs) =>
      match build_zip_entries fs rest with
      | (.error e, evs2) => (.error e, evs ++ evs2)
      | (.ok es2, evs2) => (.ok (es ++ es2), evs ++ evs2)

/-- The container layout: Nonce ‖ WrappedKeyLength (2 bytes, big-endian)
‖ WrappedKey ‖ Ciphertext. -/
def container_bytes (nonce wrapped ct : Bytes) : Bytes :=
  nonce ++ be16 (as_u16 wrapped.length) ++ wrapped ++ ct

/-- Mirrors `encrypt_file_with_public_key`: read and parse the public key
PEM, AEAD-encrypt the zip bytes under the fresh key and nonce, wrap the
key, then write nonce, length field, wrapped key and ciphertext to the
output file with four successive writes.  The fresh AES key and nonce
are the function's randomness, passed in explicitly. -/
def encrypt_file_with_public_key (fs : FS) (aes_key nonce zip_data : Bytes)
    (public_key_path encrypted_path : PathC) : Except ArchError FS × List FsEvent :=
  match fileContent fs public_key_path with
  | none => (.error .ioError, [])
  | some pem =>
    match parse_public_key_pem pem with
    | none => (.error .keyParseError, [.readF public_key_path])
    | some keyId =>
      let encrypted_zip := aeadEncrypt aes_key nonce zip_data
      let encrypted_key := rsa_encrypt keyId aes_key
      match createFile fs encrypted_path [] with
      | .error e => (.error e, [.readF public_key_path])
      | .ok fs1 =>
        match appendFile fs1 encrypted_path nonce with
        | .error e => (.error e, [.readF public_key_path, .writeF encrypted_path])
        | .ok fs2 =>
          match appendFile fs2 encrypted_path (be16 (as_u16 encrypted_key.length)) with
          | .error e => (.error e, [.readF public_key_path, .writeF encrypted_path])
          | .ok fs3 =>
            match appendFile fs3 encrypted_path encrypted_key with
            | .error e => (.error e, [.readF public_key_path, .writeF encrypted_path])
            | .ok fs4 =>
              match appendFile fs4 encrypted_path encrypted_zip with
              | .error e => (.error e, [.readF public_key_path, .writeF encrypted_path])
              | .ok fs5 => (.ok fs5, [.readF public_key_path, .writeF encrypted_path])

/-- Mirrors `compress_files`: extension gate, file counting (for the
progress bar; it fails on a missing target), the zip-building loop over
the targets, encryption to the output path, and the final
`canonicalize` of the output path. -/
def compress_files (fs : FS) (aes_key nonce : Bytes) (output_crypted public_key_path : PathC)
    (target_pathes : List PathC) : RunResult Unit × FS × List FsEvent :=
  if validate_extension output_crypted = false then (.err .invalidExtension, fs, [])
  else
    match count_files_in_paths fs target_pathes with
    | .error e => (.err e, fs, [])
    | .ok _ =>
      match build_zip_entries fs target_pathes with
      | (.error e, evs) => (.err e, fs, evs)
      | (.ok entries, evs) =>
        match encrypt_file_with_public_key fs aes_key nonce (serializeZip entries)
            public_key_path output_crypted with
        | (.error e, evs2) => (.err e, fs, evs ++ evs2)
        | (.ok fs1, evs2) =>
          if pathExists fs1 output_crypted then (.ok (), fs1, evs ++ evs2)
          else (.err .ioError, fs1, evs ++ evs2)

/-- Mirrors `extract_nonce`: the first 12 bytes, or the "data too short"
error when fewer are available. -/
def extract_nonce (encrypted_data : Bytes) : Except ArchError Bytes :=
  if 12 ≤ encrypted_data.length then .ok (encrypted_data.take 12)
  else .error .malformedContainer

/-- Mirrors `decrypt_zip_with_rsa`, including its panics: read the
container and the private key PEM, take the nonce, read the
wrapped-key-length field by direct indexing (a panic when the buffer has
12 or 13 bytes), slice the wrapped key (a panic when the buffer is too
short for it), unwrap the content key, convert it to a 32-byte array (a
panic on any other length), and AEAD-decrypt the remainder. -/
def decrypt_zip_with_rsa (fs : FS) (encrypted_path private_key_path : PathC) :
    RunResult Bytes × List FsEvent :=
  match fileContent fs encrypted_path with
  | none => (.err .ioError, [])
  | some encrypted_data =>
    match fileContent fs private_key_path with
    | none => (.err .ioError, [.readF encrypted_path])
    | some pem =>
      let evs := [FsEvent.readF encrypted_path, FsEvent.readF private_key_path]
      match parse_private_key_pem pem with
      | none => (.err .keyParseError, evs)
      | some keyId =>
        match extract_nonce encrypted_data with
        | .error e => (.err e, evs)
        | .ok nonce =>
          if encrypted_data.length < 14 then (.panicked, evs)
          else
            let key_size := de16 (nthByte encrypted_data 12) (nthByte encrypted_data 13)
            if encrypted_data.length < 14 + key_size then (.panicked, evs)
            else
              let encrypted_key := (encrypted_data.drop 14).take key_size
              match rsa_decrypt keyId encrypted_key with
              | none => (.err .keyUnwrapError, evs)
              | some aes_key_bytes =>
                if aes_key_bytes.length ≠ 32 then (.panicked, evs)
                else
                  let encrypted_zip := encrypted_data.drop (14 + key_size)
                  match aeadDecrypt aes_key_bytes nonce encrypted_zip with
                  | none => (.err .authenticationFailed, evs)
                  | some pt => (.ok pt, evs)

/-- One iteration of the extraction loop of `extract_files`: join the
output directory with the entry name; a name with a trailing separator
becomes `create_dir_all`; otherwise the missing ancestors are created
and the content is written to the joined path. -/
def extractEntry (fs : FS) (output_dir : PathC) (e : ZEntry) :
    Except ArchError FS × List FsEvent :=
  let outpath := joinEntry output_dir e.name
  if isDirName e.name then
    (mkdirAll fs outpath, [.mkdir outpath])
  else
    let pr := parentOf outpath
    match (if pathExists fs pr then Except.ok fs else mkdirAll fs pr) with
    | .error err => (.error err, [.mkdir pr])
    | .ok fs1 =>
      match createFile fs1 outpath e.content with
      | .error err => (.error err, [.writeF outpath])
      | .ok fs2 => (.ok fs2, [.writeF outpath])

/-- The extraction loop over all parsed entries; a failure stops the loop
and leaves the entries written so far in place (non-transactional, as
the spec documents). -/
def extractEntries (fs : FS) (output_dir : PathC) :
    List ZEntry → Except ArchError Unit × FS × List FsEvent
  | [] => (.ok (), fs, [])
  | e :: rest =>
    match extractEntry fs output_dir e with
    | (.error err, evs) => (.error err, fs, evs)
    | (.ok fs1, evs) =>
      match extractEntries fs1 output_dir rest with
      | (r, fs2, evs2) => (r, fs2, evs ++ evs2)

/-- Mirrors `extract_files`: extension gate, decryption, zip parsing (the
entry count for the progress bar and the loop read the same archive),
the extraction loop, and the final `canonicalize` of the output
directory, which fails when that path does not exist. -/
def extract_files (fs : FS) (input_encrypted_file private_key_path output_dir : PathC) :
    RunResult Unit × FS × List FsEvent :=
  if validate_extension input_encrypted_file = false then (.err .invalidExtension, fs, [])
  else
    match decrypt_zip_with_rsa fs input_encrypted_file private_key_path with
    | (.err e, evs) => (.err e, fs, evs)
    | (.panicked, evs) => (.panicked, fs, evs)
    | (.ok decrypted_zip, evs) =>
      match parseZip decrypted_zip with
      | none => (.err .zipError, fs, evs)
      | some entries =>
        match extractEntries fs output_dir entries with
        | (.error e, fs1, evs2) => (.err e, fs1, evs ++ evs2)
        | (.ok _, fs1, evs2) =>
          if pathExists fs1 output_dir then (.ok (), fs1, evs ++ evs2)
          else (.err .ioError, fs1, evs ++ evs2)

/-- One path component is acceptable: non-empty, separator-free, ASCII. -/
def goodComp (c : String) : Bool :=
  !(c == "") && c.toList.all (fun ch => !(ch == '/') && ch.toNat < 256)

/-- All components of a path are acceptable. -/
def goodPath (p : PathC) : Bool := p.comps.all goodComp

/-- The keys of a file table are pairwise distinct. -/
def listNodupKeys : List (PathC × FsNode) → Bool
  | [] => true
  | e :: rest => rest.all (fun e2 => !(e2.1 == e.1)) && listNodupKeys rest

/-- Well-formedness of a filesystem snapshot, as real filesystems
guarantee it: unique keys, acceptable non-empty paths, byte-valid file
contents, and tree shape (only a directory has entries strictly below
it). -/
def FS.wfb (fs : FS) : Bool :=
  fs.entries.all (fun e =>
    goodPath e.1 && !(e.1.comps == []) &&
    (match e.2 with
     | .file c => c.all (fun b => b < 256)
     | _ => true)) &&
  listNodupKeys fs.entries &&
  fs.entries.all (fun e => fs.entries.all (fun e2 =>
    !(pathLT e.1 e2.1) || (e.2 == FsNode.dir)))

/-- Every ancestor-or-self of the path is absent or a directory. -/
def ancestorsOk (fs : FS) (p : PathC) : Bool :=
  (List.range (p.comps.length + 1)).all (fun k =>
    match nodeAt fs ⟨p.abs, p.comps.take k⟩ with
    | none => true
    | some .dir => true
    | some _ => false)

/-- Nothing exists strictly below the path. -/
def underEmpty (fs : FS) (p : PathC) : Bool :=
  fs.entries.all (fun e => !(pathLT p e.1))

/-- Entry names that extraction resolves inside the output directory:
relative, with at least one component. -/
def relName (s : String) : Bool := !(startsSlash s) && !(comps s == [])

/-- Compatibility of two archive entries for extraction: a file entry's
component path is never a prefix (in particular never equal) of the
other entry's component path. -/
def entCompat (e f : ZEntry) : Bool :=
  (isDirName e.name || !(isPfxOf (comps e.name) (comps f.name))) &&
  (isDirName f.name || !(isPfxOf (comps f.name) (comps e.name)))

/-- A node that does not block directory creation: absent or a directory. -/
def nodeOk (n : Option FsNode) : Prop := n = none ∨ n = some FsNode.dir

/-- Where a handled entry has left its mark: a directory entry's full
chain of directories exists; a file entry's content sits at
`outputDir/<entry name>`. -/
def PlacedAt (fs : FS) (od : PathC) (f : ZEntry) : Prop :=
  if isDirName f.name then
    ∀ k, k ≤ (entryPath od f.name).comps.length →
      nodeAt fs ⟨(entryPath od f.name).abs, (entryPath od f.name).comps.take k⟩ = some .dir
  else nodeAt fs (entryPath od f.name) = some (.file f.content)

/-- Invariant for every path strictly below the output directory: it is
absent, or a directory on the way to some handled entry, or the file of
a handled file entry. -/
def UnderInv (fs : FS) (od : PathC) (F : List ZEntry) (p : PathC) : Prop :=
  nodeAt fs p = none ∨
  (nodeAt fs p = some .dir ∧ ∃ f ∈ F, pathLE p (entryPath od f.name) = true ∧
    (isDirName f.name = true ∨ p ≠ entryPath od f.name)) ∨
  (∃ f ∈ F, isDirName f.name = false ∧ p = entryPath od f.name ∧
    nodeAt fs p = some (.file f.content))

/-! Concrete test fixtures used by witnesses and counterexamples. -/

/-- Fixture: a relative file path `notes.txt`. -/
def fxNotes : PathC := ⟨false, ["notes.txt"]⟩

/-- Fixture: a relative directory path `docs`. -/
def fxDocs : PathC := ⟨false, ["docs"]⟩

/-- Fixture: the file `docs/a.txt`. -/
def fxDocsA : PathC := ⟨false, ["docs", "a.txt"]⟩

/-- Fixture: the public-key PEM path. -/
def fxPub : PathC := ⟨false, ["pub.pem"]⟩

/-- Fixture: the private-key PEM path. -/
def fxPriv : PathC := ⟨false, ["priv.pem"]⟩

/-- Fixture: the container output path `out.acrp`. -/
def fxOut : PathC := ⟨false, ["out.acrp"]⟩

/-- Fixture: the extraction output directory `dest`. -/
def fxDest : PathC := ⟨false, ["dest"]⟩

/-- Fixture: a 256-bit content key. -/
def fxKey : Bytes := List.replicate 32 7

/-- Fixture: a 96-bit nonce. -/
def fxNonce : Bytes := List.replicate 12 9

/-- Fixture: a small filesystem with one file, one directory holding one
file, and a matching PEM key pair (key identity 5). -/
def fxFs : FS := ⟨[
  (fxNotes, .file [104, 105]),
  (fxDocs, .dir),
  (fxDocsA, .file [97, 98, 99]),
  (fxPub, .file [1, 5]),
  (fxPriv, .file [2, 5])]⟩

/-- Fixture: `fxFs` after compressing `notes.txt` and `docs` to
`out.acrp`. -/
def fxFsAfter : FS :=
  (compress_files fxFs fxKey fxNonce fxOut fxPub [fxNotes, fxDocs]).2.1

/-- Fixture: `fxFsAfter` with an additional non-matching private key
(key identity 6). -/
def fxWrong : PathC := ⟨false, ["wrong.pem"]⟩

/-- Fixture: filesystem for the wrong-key scenario. -/
def fxFsWrongKey : FS := ⟨fxFsAfter.entries ++ [(fxWrong, .file [2, 6])]⟩

/-- Fixture: a filesystem whose container file holds only 13 bytes. -/
def fxFs13 : FS :=
  ⟨[(fxOut, .file (List.replicate 13 0)), (fxPriv, .file [2, 5])]⟩

/-- Fixture: a 16-byte container whose wrapped-key-length field (500)
overruns the buffer. -/
def fxFsOversize : FS :=
  ⟨[(fxOut, .file (List.replicate 12 0 ++ [1, 244, 0, 0])), (fxPriv, .file [2, 5])]⟩

/-- Fixture: a well-formed container for an empty archive (no entries). -/
def fxEmptyContainer : Bytes :=
  container_bytes fxNonce (rsa_encrypt 5 fxKey) (aeadEncrypt fxKey fxNonce (serializeZip []))

/-- Fixture: filesystem holding the empty-archive container and the
matching private key, with no `dest` directory. -/
def fxFsEmptyArch : FS :=
  ⟨[(fxOut, .file fxEmptyContainer), (fxPriv, .file [2, 5])]⟩

/-- Fixture: a container for a one-entry archive (`e.txt`). -/
def fxOneContainer : Bytes :=
  container_bytes fxNonce (rsa_encrypt 5 fxKey)
    (aeadEncrypt fxKey fxNonce (serializeZip [⟨"e.txt", [42]⟩]))

/-- Fixture: filesystem holding the one-entry container, the matching
private key, and an existing `dest` directory. -/
def fxFsOneArch : FS :=
  ⟨[(fxOut, .file fxOneContainer), (fxPriv, .file [2, 5]), (fxDest, .dir)]⟩

/-- Fixture: a container whose wrapped key unwraps to 31 bytes. -/
def fxShortKeyContainer : Bytes :=
  container_bytes fxNonce (rsa_encrypt 5 (List.replicate 31 4)) []

/-- Fixture: filesystem for the short-unwrapped-key scenario. -/
def fxFsShortKey : FS :=
  ⟨[(fxOut, .file fxShortKeyContainer), (fxPriv, .file [2, 5])]⟩

/-- Fixture: two file targets in different directories sharing the base
name `same.txt` (the entry-name collision scenario). -/
def fxCollA : PathC := ⟨false, ["x", "same.txt"]⟩

/-- Fixture: second colliding target. -/
def fxCollB : PathC := ⟨false, ["y", "same.txt"]⟩

/-- Fixture: filesystem for the collision scenario. -/
def fxFsColl : FS := ⟨[
  (⟨false, ["x"]⟩, .dir),
  (⟨false, ["y"]⟩, .dir),
  (fxCollA, .file [1]),
  (fxCollB, .file [2]),
  (fxPub, .file [1, 5]),
  (fxPriv, .file [2, 5])]⟩

/-- Fixture: a container for an archive with one absolutely named entry
`/e`. -/
def fxAbsContainer : Bytes :=
  container_bytes fxNonce (rsa_encrypt 5 fxKey)
    (aeadEncrypt fxKey fxNonce (serializeZip [⟨"/e", [42]⟩]))

/-- Fixture: filesystem for the absolute-entry-name scenario. -/
def fxFsAbsEntry : FS :=
  ⟨[(fxOut, .file fxAbsContainer), (fxPriv, .file [2, 5]), (fxDest, .dir)]⟩

/-- Fixture: a special node (fifo) path. -/
def fxFifo : PathC := ⟨false, ["fifo"]⟩

/-- Fixture: `fxFs` extended with a special node. -/
def fxFsSpecial : FS := ⟨fxFs.entries ++ [(fxFifo, .special)]⟩

/-- Projection of a successful `Except` result, with a default (used by
witnesses to name the filesystem a concrete run produced). -/
def okOr (e : Except ArchError FS) (d : FS) : FS :=
  match e with
  | .ok f => f
  | .error _ => d

/-- Fixture: the untampered ciphertext of a 3-byte archive plaintext. -/
def fxTamperCt : Bytes := aeadEncrypt fxKey fxNonce [1, 2, 3]

/-- Fixture: ciphertext bytes before the flipped position (index 2). -/
def fxTamperPre : Bytes := fxTamperCt.take 2

/-- Fixture: the original byte at the flipped position. -/
def fxTamperOld : Nat := nthByte fxTamperCt 2

/-- Fixture: ciphertext bytes after the flipped position. -/
def fxTamperSuf : Bytes := fxTamperCt.drop 3

/-- Fixture: the flipped byte value. -/
def fxTamperV : Nat := (fxTamperOld + 1) % 256

/-- Fixture: the container with one ciphertext byte flipped. -/
def fxTamperContainer : Bytes :=
  container_bytes fxNonce (rsa_encrypt 5 fxKey) (fxTamperPre ++ fxTamperV :: fxTamperSuf)

/-- Fixture: filesystem holding the tampered container and the matching
private key. -/
def fxFsTampered : FS :=
  ⟨[(fxOut, .file fxTamperContainer), (fxPriv, .file [2, 5])]⟩

/-- Decidable equality of the model's `Except` results (needed so that
witnesses can evaluate them with `decide`). -/
instance : DecidableEq (Except ArchError FS) := fun x y =>
  match x, y with
  | .error a, .error b =>
    if h : a = b then .isTrue (by rw [h])
    else .isFalse (by intro hh; injection hh; contradiction)
  | .ok a, .ok b =>
    if h : a = b then .isTrue (by rw [h])
    else .isFalse (by intro hh; injection hh; contradiction)
  | .error a, .ok b => .isFalse (by intro hh; exact Except.noConfusion hh)
  | .ok a, .error b => .isFalse (by intro hh; exact Except.noConfusion hh)

/-- Decidable equality of `Except` results over any decidable error and
value types (same purpose as the instance above, for entry-list
results). -/
instance {α β : Type} [DecidableEq α] [DecidableEq β] : DecidableEq (Except α β) :=
  fun x y =>
  match x, y with
  | .error a, .error b =>
    if h : a = b then .isTrue (by rw [h])
    else .isFalse (by intro hh; injection hh; contradiction)
  | .ok a, .ok b =>
    if h : a = b then .isTrue (by rw [h])
    else .isFalse (by intro hh; injection hh; contradiction)
  | .error a, .ok b => .isFalse (by intro hh; exact Except.noConfusion hh)
  | .ok a, .error b => .isFalse (by intro hh; exact Except.noConfusion hh)

/-! Helper lemmas about the byte-list and filesystem primitives. -/

theorem length_mapEnum (f : Nat → Nat → Nat) (s : Nat) (l : Bytes) :
    (mapEnum f s l).length = l.length := by
  induction l generalizing s with
  | nil => rfl
  | cons b rest ih => simp [mapEnum, ih]

theorem nthByte_append_right (a b : Bytes) (i : Nat) :
    nthByte (a ++ b) (a.length + i) = nthByte b i := by
  induction a with
  | nil => simp
  | cons x a ih =>
    show nthByte (x :: (a ++ b)) ((x :: a).length + i) = nthByte b i
    have h : (x :: a).length + i = (a.length + i) + 1 := by
      rw [List.length_cons]
      omega
    rw [h]
    exact ih

theorem nthByte_append_left (a b : Bytes) (i : Nat) (h : i < a.length) :
    nthByte (a ++ b) i = nthByte a i := by
  induction a generalizing i with
  | nil => simp at h
  | cons x a ih =>
    cases i with
    | zero => rfl
    | succ j => exact ih j (by simpa using h)

theorem nthByte_mapEnum (f : Nat → Nat → Nat) (s : Nat) (l : Bytes) (i : Nat)
    (h : i < l.length) :
    nthByte (mapEnum f s l) i = f (s + i) (nthByte l i) := by
  induction l generalizing s i with
  | nil => simp at h
  | cons b rest ih =>
    cases i with
    | zero => simp [mapEnum, nthByte]
    | succ j =>
      show nthByte (mapEnum f (s + 1) rest) j = f (s + (j + 1)) (nthByte rest j)
      rw [ih (s + 1) j (by simpa using h)]
      congr 1
      omega

theorem nthByte_take (l : Bytes) (n i : Nat) (h : i < n) :
    nthByte (l.take n) i = nthByte l i := by
  induction l generalizing n i with
  | nil => simp
  | cons b rest ih =>
    cases n with
    | zero => omega
    | succ m =>
      cases i with
      | zero => rfl
      | succ j => exact ih m j (by omega)

theorem nthByte_drop (l : Bytes) (n i : Nat) :
    nthByte (l.drop n) i = nthByte l (n + i) := by
  induction l generalizing n with
  | nil => simp [nthByte]
  | cons b rest ih =>
    cases n with
    | zero => simp
    | succ m =>
      show nthByte (rest.drop m) i = nthByte (b :: rest) (m + 1 + i)
      have h : m + 1 + i = (m + i) + 1 := by omega
      rw [h]
      exact ih m

theorem find_filter_ne (l : List (PathC × FsNode)) (p q : PathC) (h : q ≠ p) :
    (l.filter (fun e => !(e.1 == p))).find? (fun e => e.1 == q) =
      l.find? (fun e => e.1 == q) := by
  induction l with
  | nil => rfl
  | cons e t ih =>
    by_cases he : e.1 = p
    · have h1 : (e.1 == p) = true := by simpa using he
      have h2 : (e.1 == q) = false := by
        simp only [beq_eq_false_iff_ne]
        exact fun hq => h (hq ▸ he ▸ rfl)
      simp [List.filter_cons, h1, List.find?_cons, h2, ih]
    · have h1 : (e.1 == p) = false := by simpa using he
      by_cases hq : e.1 = q
      · have h2 : (e.1 == q) = true := by simpa using hq
        simp [List.filter_cons, h1, List.find?_cons, h2]
      · have h2 : (e.1 == q) = false := by simpa using hq
        simp [List.filter_cons, h1, List.find?_cons, h2, ih]

theorem nodeAt_set_self (fs : FS) (p : PathC) (n : FsNode) (h : p.comps ≠ []) :
    nodeAt (fs.set p n) p = some n := by
  simp [nodeAt, FS.set, h, List.find?_cons]

theorem nodeAt_set_ne (fs : FS) (p : PathC) (n : FsNode) (q : PathC) (h : q ≠ p) :
    nodeAt (fs.set p n) q = nodeAt fs q := by
  by_cases hq : q.comps = []
  · simp [nodeAt, hq]
  · have h1 : (p == q) = false := by
      simp only [beq_eq_false_iff_ne]
      exact fun hpq => h (hpq ▸ rfl)
    simp [nodeAt, hq, FS.set, List.find?_cons, h1, find_filter_ne _ p q h]

/-! Claim theorems. -/

/-- C6: for every output path whose extension is not "acrp",
`compress_files` fails with the invalid-extension error before doing
any file I/O (the filesystem is untouched and the event trace is
empty); the same holds for `extract_files` on its input path. -/
theorem C6_extension_gate (fs : FS) (aes_key nonce : Bytes)
    (outP pubP inP kp od : PathC) (targets : List PathC)
    (hout : pathExtension outP ≠ some EXTENTION)
    (hin : pathExtension inP ≠ some EXTENTION) :
    compress_files fs aes_key nonce outP pubP targets = (.err .invalidExtension, fs, []) ∧
    extract_files fs inP kp od = (.err .invalidExtension, fs, []) := by
  have h1 : validate_extension outP = false := by
    simp [validate_extension, hout]
  have h2 : validate_extension inP = false := by
    simp [validate_extension, hin]
  constructor
  · simp [compress_files, h1]
  · simp [extract_files, h2]

/-- C6 witness: concrete paths `out.txt` and `in.zip` are rejected with
no I/O on a concrete filesystem. -/
theorem C6_extension_gate_witness :
    (pathExtension ⟨false, ["out.txt"]⟩ ≠ some EXTENTION ∧
      pathExtension ⟨false, ["in.zip"]⟩ ≠ some EXTENTION) ∧
    (compress_files fxFs fxKey fxNonce ⟨false, ["out.txt"]⟩ fxPub [fxNotes] =
        (.err .invalidExtension, fxFs, []) ∧
      extract_files fxFs ⟨false, ["in.zip"]⟩ fxPriv fxDest =
        (.err .invalidExtension, fxFs, [])) :=
  ⟨⟨by decide, by decide⟩,
    C6_extension_gate fxFs fxKey fxNonce ⟨false, ["out.txt"]⟩ fxPub
      ⟨false, ["in.zip"]⟩ fxPriv fxDest [fxNotes] (by decide) (by decide)⟩

/-- C3 (code bug): on a 13-byte container, and on a 16-byte container
whose wrapped-key-length field (500) overruns the buffer,
`decrypt_zip_with_rsa` panics (out-of-bounds index / slice) instead of
returning the malformed-container error the spec requires. -/
theorem C3_parse_panics_instead_of_error :
    (decrypt_zip_with_rsa fxFs13 fxOut fxPriv).1 = .panicked ∧
    (decrypt_zip_with_rsa fxFsOversize fxOut fxPriv).1 = .panicked := by
  constructor
  · decide
  · decide

/-- C10: whenever the container parses far enough that the RSA unwrap
succeeds but yields a key of any length other than 32 bytes,
`decrypt_zip_with_rsa` panics at the 32-byte array conversion instead
of returning a key-unwrap error. -/
theorem C10_bad_unwrapped_key_length_panics (fs : FS) (encP kp : PathC)
    (data pem : Bytes) (kid : Nat) (kb : Bytes)
    (hdata : fileContent fs encP = some data)
    (hpem : fileContent fs kp = some pem)
    (hkid : parse_private_key_pem pem = some kid)
    (hlen : 14 ≤ data.length)
    (hks : 14 + de16 (nthByte data 12) (nthByte data 13) ≤ data.length)
    (hun : rsa_decrypt kid
        ((data.drop 14).take (de16 (nthByte data 12) (nthByte data 13))) = some kb)
    (h32 : kb.length ≠ 32) :
    (decrypt_zip_with_rsa fs encP kp).1 = .panicked := by
  have hn : extract_nonce data = .ok (data.take 12) := by
    rw [extract_nonce, if_pos (by omega)]
  simp only [decrypt_zip_with_rsa, hdata, hpem, hkid, hn]
  rw [if_neg (by omega), if_neg (by omega), hun]
  simp [h32]

/-- C10 witness: a concrete container whose wrapped key unwraps to 31
bytes makes the function panic. -/
theorem C10_bad_unwrapped_key_length_panics_witness :
    (fileContent fxFsShortKey fxOut = some fxShortKeyContainer ∧
      fileContent fxFsShortKey fxPriv = some [2, 5] ∧
      parse_private_key_pem [2, 5] = some 5 ∧
      14 ≤ fxShortKeyContainer.length ∧
      14 + de16 (nthByte fxShortKeyContainer 12) (nthByte fxShortKeyContainer 13) ≤
        fxShortKeyContainer.length ∧
      rsa_decrypt 5 ((fxShortKeyContainer.drop 14).take
        (de16 (nthByte fxShortKeyContainer 12) (nthByte fxShortKeyContainer 13))) =
        some (List.replicate 31 4) ∧
      (List.replicate 31 4).length ≠ 32) ∧
    (decrypt_zip_with_rsa fxFsShortKey fxOut fxPriv).1 = .panicked :=
  ⟨⟨by decide, by decide, by decide, by decide, by decide, by decide, by decide⟩,
    C10_bad_unwrapped_key_length_panics fxFsShortKey fxOut fxPriv
      fxShortKeyContainer [2, 5] 5 (List.replicate 31 4)
      (by decide) (by decide) (by decide) (by decide) (by decide) (by decide) (by decide)⟩

/-- C9 (amended): whenever `extract_files` returns success, the output
directory exists afterwards (the final canonicalize step guarantees
it).  The original claim additionally promised success with the
directory created even for an archive with no entries; the
counterexample shows that case fails instead. -/
theorem C9_success_implies_output_dir (fs : FS) (inP kp od : PathC)
    (h : (extract_files fs inP kp od).1 = .ok ()) :
    pathExists (extract_files fs inP kp od).2.1 od = true := by
  rcases hE : extract_files fs inP kp od with ⟨r, fs2, evs⟩
  rw [hE] at h
  simp only at h
  unfold extract_files at hE
  by_cases hval : validate_extension inP = false
  · rw [if_pos hval] at hE
    simp only [Prod.mk.injEq] at hE
    rw [← hE.1] at h
    exact absurd h (by simp)
  · rw [if_neg hval] at hE
    rcases hdec : decrypt_zip_with_rsa fs inP kp with ⟨rd, evd⟩
    rw [hdec] at hE
    cases rd with
    | err e =>
      simp only [Prod.mk.injEq] at hE
      rw [← hE.1] at h
      exact absurd h (by simp)
    | panicked =>
      simp only [Prod.mk.injEq] at hE
      rw [← hE.1] at h
      exact absurd h (by simp)
    | ok zb =>
      dsimp only at hE
      cases hparse : parseZip zb with
      | none =>
        rw [hparse] at hE
        simp only [Prod.mk.injEq] at hE
        rw [← hE.1] at h
        exact absurd h (by simp)
      | some entries =>
        rw [hparse] at hE
        dsimp only at hE
        rcases hex : extractEntries fs od entries with ⟨res, fs1, evs2⟩
        rw [hex] at hE
        cases res with
        | error e =>
          simp only [Prod.mk.injEq] at hE
          rw [← hE.1] at h
          exact absurd h (by simp)
        | ok u =>
          dsimp only at hE
          by_cases hpe : pathExists fs1 od = true
          · rw [if_pos hpe] at hE
            simp only [Prod.mk.injEq] at hE
            exact hE.2.1 ▸ hpe
          · rw [if_neg hpe] at hE
            simp only [Prod.mk.injEq] at hE
            rw [← hE.1] at h
            exact absurd h (by simp)

/-- C9 witness: a concrete successful extraction, after which the output
directory exists. -/
theorem C9_success_implies_output_dir_witness :
    (extract_files fxFsOneArch fxOut fxPriv fxDest).1 = .ok () ∧
    pathExists (extract_files fxFsOneArch fxOut fxPriv fxDest).2.1 fxDest = true :=
  ⟨by decide, C9_success_implies_output_dir fxFsOneArch fxOut fxPriv fxDest (by decide)⟩

/-- C9 counterexample: with an absent output directory and an archive
with no entries, `extract_files` does not create the directory and
fails (the final canonicalize errors) instead of returning success as
the claim states. -/
theorem C9_counterexample :
    pathExists fxFsEmptyArch fxDest = false ∧
    (decrypt_zip_with_rsa fxFsEmptyArch fxOut fxPriv).1 =
      .ok (serializeZip []) ∧
    (extract_files fxFsEmptyArch fxOut fxPriv fxDest).1 = .err .ioError := by
  refine ⟨by decide, by decide, by decide⟩

theorem count_files_in_paths_ok (fs : FS) (targets : List PathC)
    (hex : ∀ t ∈ targets, pathExists fs t = true) :
    ∃ n, count_files_in_paths fs targets = .ok n := by
  induction targets with
  | nil => exact ⟨0, rfl⟩
  | cons t rest ih =>
    have h1 : pathExists fs t = true := hex t (by simp)
    obtain ⟨nd, hnd⟩ : ∃ nd, nodeAt fs t = some nd := by
      rcases hn : nodeAt fs t with _ | nd
      · rw [pathExists, hn] at h1
        simp at h1
      · exact ⟨nd, rfl⟩
    obtain ⟨m, hm⟩ := ih (fun x hx => hex x (by simp [hx]))
    refine ⟨(filesUnder fs t).length + m, ?_⟩
    simp [count_files_in_paths, count_files, hnd, hm]

theorem getLast?_some_of_ne_nil (l : List String) (h : l ≠ []) :
    ∃ b, l.getLast? = some b := by
  cases l with
  | nil => exact absurd rfl h
  | cons a as => exact ⟨(a :: as).getLast (by simp), List.getLast?_eq_getLast _ _⟩

theorem buildTarget_events (fs : FS) (t : PathC) (es : List ZEntry) (evs : List FsEvent)
    (h : buildTarget fs t = .ok (es, evs)) : ∀ ev ∈ evs, ∃ p, ev = FsEvent.readF p := by
  unfold buildTarget at h
  rcases hn : nodeAt fs t with _ | n
  · rw [hn] at h
    exact absurd h (by simp)
  · rw [hn] at h
    cases n with
    | file c =>
      cases hgl : t.comps.getLast? with
      | none =>
        rw [hgl] at h
        exact absurd h (by simp)
      | some base =>
        rw [hgl] at h
        simp only [Except.ok.injEq, Prod.mk.injEq] at h
        intro ev hev
        rw [← h.2] at hev
        simp at hev
        exact ⟨t, hev⟩
    | dir =>
      cases hgl : t.comps.getLast? with
      | none =>
        rw [hgl] at h
        exact absurd h (by simp)
      | some base =>
        rw [hgl] at h
        simp only [Except.ok.injEq, Prod.mk.injEq] at h
        intro ev hev
        rw [← h.2] at hev
        rcases List.mem_map.1 hev with ⟨q, _, rfl⟩
        exact ⟨q.1, rfl⟩
    | special =>
      exact absurd h (by simp)

theorem build_zip_events_reads (fs : FS) (targets : List PathC) :
    ∀ ev ∈ (build_zip_entries fs targets).2, ∃ p, ev = FsEvent.readF p := by
  induction targets with
  | nil => simp [build_zip_entries]
  | cons t rest ih =>
    unfold build_zip_entries
    rcases hbt : buildTarget fs t with e | ⟨es, evs⟩
    · simp
    · rcases hbz : build_zip_entries fs rest with ⟨r2, evs2⟩
      rw [hbz] at ih
      have hevs := buildTarget_events fs t es evs hbt
      cases r2 with
      | error e2 =>
        dsimp only
        intro ev hev
        rcases List.mem_append.1 hev with hl | hr
        · exact hevs ev hl
        · exact ih ev hr
      | ok es2 =>
        dsimp only
        intro ev hev
        rcases List.mem_append.1 hev with hl | hr
        · exact hevs ev hl
        · exact ih ev hr

theorem build_zip_entries_invalid (fs : FS) (targets : List PathC)
    (hcomps : ∀ t ∈ targets, t.comps ≠ [])
    (hex : ∀ t ∈ targets, pathExists fs t = true)
    (hspec : ∃ t ∈ targets, nodeAt fs t = some .special) :
    (build_zip_entries fs targets).1 = .error .invalidTarget := by
  induction targets with
  | nil =>
    rcases hspec with ⟨t, ht, _⟩
    exact absurd ht (List.not_mem_nil t)
  | cons t rest ih =>
    unfold build_zip_entries
    rcases hn : nodeAt fs t with _ | n
    · have := hex t (by simp)
      rw [pathExists, hn] at this
      simp at this
    · cases n with
      | special =>
        have hbt : buildTarget fs t = .error .invalidTarget := by
          unfold buildTarget
          rw [hn]
        rw [hbt]
      | file c =>
        obtain ⟨base, hb⟩ := getLast?_some_of_ne_nil t.comps (hcomps t (by simp))
        have hbt : buildTarget fs t = .ok ([⟨base, c⟩], [.readF t]) := by
          unfold buildTarget
          rw [hn, hb]
        rw [hbt]
        have hrest : (build_zip_entries fs rest).1 = .error .invalidTarget := by
          refine ih (fun x hx => hcomps x (by simp [hx])) (fun x hx => hex x (by simp [hx])) ?_
          rcases hspec with ⟨x, hx, hxs⟩
          rcases List.mem_cons.1 hx with rfl | hx2
          · rw [hn] at hxs
            exact absurd hxs (by simp)
          · exact ⟨x, hx2, hxs⟩
        rcases hbz : build_zip_entries fs rest with ⟨r2, evs2⟩
        rw [hbz] at hrest
        simp only at hrest
        subst hrest
        rfl
      | dir =>
        obtain ⟨base, hb⟩ := getLast?_some_of_ne_nil t.comps (hcomps t (by simp))
        have hbt : buildTarget fs t = .ok
            ((filesUnder fs t).map (fun q => ⟨dirEntryName base t q.1, q.2⟩),
              (filesUnder fs t).map (fun q => FsEvent.readF q.1)) := by
          unfold buildTarget
          rw [hn, hb]
        rw [hbt]
        have hrest : (build_zip_entries fs rest).1 = .error .invalidTarget := by
          refine ih (fun x hx => hcomps x (by simp [hx])) (fun x hx => hex x (by simp [hx])) ?_
          rcases hspec with ⟨x, hx, hxs⟩
          rcases List.mem_cons.1 hx with rfl | hx2
          · rw [hn] at hxs
            exact absurd hxs (by simp)
          · exact ⟨x, hx2, hxs⟩
        rcases hbz : build_zip_entries fs rest with ⟨r2, evs2⟩
        rw [hbz] at hrest
        simp only at hrest
        subst hrest
        rfl

/-- C7 (amended): when every target exists (so the file-counting pass
succeeds) and some target is neither a file nor a directory (a special
node), `compress_files` fails with the invalid-target error, leaves the
filesystem untouched (in particular the output path is never created)
and performs no write or directory creation: its whole event trace is
file reads.  The original claim also covered non-existent targets; the
counterexample shows those fail earlier, in the counting pass, with an
I/O error instead. -/
theorem C7_invalid_target_aborts (fs : FS) (aes_key nonce : Bytes) (outP pubP : PathC)
    (targets : List PathC)
    (hval : validate_extension outP = true)
    (hcomps : ∀ t ∈ targets, t.comps ≠ [])
    (hex : ∀ t ∈ targets, pathExists fs t = true)
    (hspec : ∃ t ∈ targets, nodeAt fs t = some .special) :
    (compress_files fs aes_key nonce outP pubP targets).1 = .err .invalidTarget ∧
    (compress_files fs aes_key nonce outP pubP targets).2.1 = fs ∧
    ∀ ev ∈ (compress_files fs aes_key nonce outP pubP targets).2.2,
      ∃ p, ev = FsEvent.readF p := by
  obtain ⟨n, hcount⟩ := count_files_in_paths_ok fs targets hex
  have hb := build_zip_entries_invalid fs targets hcomps hex hspec
  rcases hbz : build_zip_entries fs targets with ⟨r, evs⟩
  rw [hbz] at hb
  simp only at hb
  subst hb
  have hres : compress_files fs aes_key nonce outP pubP targets =
      (.err .invalidTarget, fs, evs) := by
    unfold compress_files
    rw [if_neg (by simp [hval]), hcount]
    dsimp only
    rw [hbz]
  rw [hres]
  refine ⟨rfl, rfl, ?_⟩
  intro ev hev
  have hr := build_zip_events_reads fs targets
  rw [hbz] at hr
  exact hr ev hev

/-- C7 witness: a special node among otherwise fine targets aborts the
build with the invalid-target error and an all-reads trace. -/
theorem C7_invalid_target_aborts_witness :
    (validate_extension fxOut = true ∧
      (∀ t ∈ [fxNotes, fxFifo], t.comps ≠ []) ∧
      (∀ t ∈ [fxNotes, fxFifo], pathExists fxFsSpecial t = true) ∧
      (∃ t ∈ [fxNotes, fxFifo], nodeAt fxFsSpecial t = some .special)) ∧
    ((compress_files fxFsSpecial fxKey fxNonce fxOut fxPub [fxNotes, fxFifo]).1 =
        .err .invalidTarget ∧
      (compress_files fxFsSpecial fxKey fxNonce fxOut fxPub [fxNotes, fxFifo]).2.1 =
        fxFsSpecial ∧
      ∀ ev ∈ (compress_files fxFsSpecial fxKey fxNonce fxOut fxPub [fxNotes, fxFifo]).2.2,
        ∃ p, ev = FsEvent.readF p) :=
  ⟨⟨by decide, by decide, by decide, by decide⟩,
    C7_invalid_target_aborts fxFsSpecial fxKey fxNonce fxOut fxPub [fxNotes, fxFifo]
      (by decide) (by decide) (by decide) (by decide)⟩

/-- C7 counterexample: a target that exists neither as a file nor as a
directory because it is absent makes `compress_files` fail in the
file-counting pass with an I/O error, not with the invalid-target
error the claim names. -/
theorem C7_counterexample :
    nodeAt fxFs ⟨false, ["ghost"]⟩ = none ∧
    (compress_files fxFs fxKey fxNonce fxOut fxPub [⟨false, ["ghost"]⟩]).1 = .err .ioError ∧
    (compress_files fxFs fxKey fxNonce fxOut fxPub [⟨false, ["ghost"]⟩]).1 ≠
      .err .invalidTarget :=
  ⟨by decide, by decide, by decide⟩

theorem createFile_ok (fs : FS) (p : PathC) (c : Bytes) (fs1 : FS)
    (h : createFile fs p c = .ok fs1) : p.comps ≠ [] ∧ fs1 = fs.set p (.file c) := by
  unfold createFile at h
  by_cases hp : p.comps = []
  · rw [if_pos hp] at h
    exact absurd h (by simp)
  · rw [if_neg hp] at h
    refine ⟨hp, ?_⟩
    rcases hpar : nodeAt fs (parentOf p) with _ | n
    · rw [hpar] at h
      exact absurd h (by simp)
    · rw [hpar] at h
      cases n with
      | file c2 => exact absurd h (by simp)
      | special => exact absurd h (by simp)
      | dir =>
        rcases hat : nodeAt fs p with _ | n2
        · rw [hat] at h
          simp only [Except.ok.injEq] at h
          exact h.symm
        · rw [hat] at h
          cases n2 with
          | file c3 =>
            simp only [Except.ok.injEq] at h
            exact h.symm
          | dir => exact absurd h (by simp)
          | special => exact absurd h (by simp)

theorem appendFile_set (fs : FS) (p : PathC) (c b : Bytes) (h : p.comps ≠ []) :
    appendFile (fs.set p (.file c)) p b =
      .ok ((fs.set p (.file c)).set p (.file (c ++ b))) := by
  unfold appendFile
  rw [nodeAt_set_self fs p (.file c) h]

/-- C4: on every successful encryption the output file's bytes are
exactly nonce ‖ wrappedKeyLength (2 bytes, big-endian) ‖ wrappedKey ‖
ciphertext, the length field decodes to exactly the wrapped key's byte
length (no truncation occurs for a wrapped 256-bit key), and the
ciphertext is the AEAD encryption of the entire raw archive under the
nonce and the fresh content key. -/
theorem C4_container_layout (fs : FS) (aes_key nonce zip_data : Bytes)
    (pubP outP : PathC) (fs1 : FS) (evs : List FsEvent) (pem : Bytes) (kid : Nat)
    (hpem : fileContent fs pubP = some pem)
    (hkid : parse_public_key_pem pem = some kid)
    (hkl : aes_key.length = 32)
    (hok : encrypt_file_with_public_key fs aes_key nonce zip_data pubP outP = (.ok fs1, evs)) :
    fileContent fs1 outP =
      some (nonce ++ be16 (as_u16 (rsa_encrypt kid aes_key).length) ++
        rsa_encrypt kid aes_key ++ aeadEncrypt aes_key nonce zip_data) ∧
    as_u16 (rsa_encrypt kid aes_key).length = (rsa_encrypt kid aes_key).length ∧
    de16 (nthByte (be16 (as_u16 (rsa_encrypt kid aes_key).length)) 0)
        (nthByte (be16 (as_u16 (rsa_encrypt kid aes_key).length)) 1) =
      (rsa_encrypt kid aes_key).length := by
  have hwl : (rsa_encrypt kid aes_key).length = 33 := by simp [rsa_encrypt, hkl]
  refine ⟨?_, by rw [hwl]; decide, by rw [hwl]; decide⟩
  simp only [encrypt_file_with_public_key, hpem, hkid] at hok
  rcases hcf : createFile fs outP [] with e | fsa
  · rw [hcf] at hok
    exact absurd hok (by simp)
  · rw [hcf] at hok
    dsimp only at hok
    obtain ⟨hne, hfsa⟩ := createFile_ok fs outP [] fsa hcf
    subst hfsa
    rw [appendFile_set fs outP [] nonce hne] at hok
    dsimp only at hok
    rw [appendFile_set (fs.set outP (.file [])) outP ([] ++ nonce) _ hne] at hok
    dsimp only at hok
    rw [appendFile_set ((fs.set outP (.file [])).set outP (.file ([] ++ nonce))) outP
      (([] ++ nonce) ++ be16 (as_u16 (rsa_encrypt kid aes_key).length)) _ hne] at hok
    dsimp only at hok
    rw [appendFile_set _ outP
      ((([] ++ nonce) ++ be16 (as_u16 (rsa_encrypt kid aes_key).length)) ++
        rsa_encrypt kid aes_key) _ hne] at hok
    dsimp only at hok
    simp only [Prod.mk.injEq, Except.ok.injEq] at hok
    rw [← hok.1]
    unfold fileContent
    rw [nodeAt_set_self _ outP _ hne]
    simp [List.append_assoc]

/-- C4 witness: a concrete successful encryption produces exactly the
described container bytes. -/
theorem C4_container_layout_witness :
    (fileContent fxFs fxPub = some [1, 5] ∧
      parse_public_key_pem [1, 5] = some 5 ∧
      fxKey.length = 32 ∧
      encrypt_file_with_public_key fxFs fxKey fxNonce [1, 2, 3] fxPub fxOut =
        (.ok (okOr (encrypt_file_with_public_key fxFs fxKey fxNonce [1, 2, 3] fxPub fxOut).1 fxFs),
          (encrypt_file_with_public_key fxFs fxKey fxNonce [1, 2, 3] fxPub fxOut).2)) ∧
    (fileContent (okOr (encrypt_file_with_public_key fxFs fxKey fxNonce [1, 2, 3] fxPub fxOut).1 fxFs) fxOut =
      some (fxNonce ++ be16 (as_u16 (rsa_encrypt 5 fxKey).length) ++
        rsa_encrypt 5 fxKey ++ aeadEncrypt fxKey fxNonce [1, 2, 3]) ∧
    as_u16 (rsa_encrypt 5 fxKey).length = (rsa_encrypt 5 fxKey).length ∧
    de16 (nthByte (be16 (as_u16 (rsa_encrypt 5 fxKey).length)) 0)
        (nthByte (be16 (as_u16 (rsa_encrypt 5 fxKey).length)) 1) =
      (rsa_encrypt 5 fxKey).length) :=
  ⟨⟨by decide, by decide, by decide, by decide⟩,
    C4_container_layout fxFs fxKey fxNonce [1, 2, 3] fxPub fxOut
      (okOr (encrypt_file_with_public_key fxFs fxKey fxNonce [1, 2, 3] fxPub fxOut).1 fxFs)
      (encrypt_file_with_public_key fxFs fxKey fxNonce [1, 2, 3] fxPub fxOut).2
      [1, 5] 5 (by decide) (by decide) (by decide) (by decide)⟩

theorem decrypt_events_cases (fs : FS) (a b : PathC) :
    (decrypt_zip_with_rsa fs a b).2 = [] ∨
    (decrypt_zip_with_rsa fs a b).2 = [FsEvent.readF a] ∨
    (decrypt_zip_with_rsa fs a b).2 = [FsEvent.readF a, FsEvent.readF b] := by
  unfold decrypt_zip_with_rsa
  repeat'
    first
    | split
    | simp

theorem decrypt_events_reads (fs : FS) (a b : PathC) :
    ∀ ev ∈ (decrypt_zip_with_rsa fs a b).2, ∃ p, ev = FsEvent.readF p := by
  intro ev hev
  rcases decrypt_events_cases fs a b with h | h | h <;> rw [h] at hev
  · simp at hev
  · simp at hev
    exact ⟨a, hev⟩
  · rcases List.mem_cons.1 hev with rfl | hev2
    · exact ⟨a, rfl⟩
    · simp at hev2
      exact ⟨b, hev2⟩

/-- C5: when decryption fails with a key-unwrap or authentication error,
`extract_files` returns exactly that error, the filesystem is unchanged
(nothing is created under the output directory or anywhere else), and
the run's whole event trace consists of file reads — no plaintext is
ever written or returned. -/
theorem C5_failed_decrypt_writes_nothing (fs : FS) (inP kp od : PathC) (e : ArchError)
    (hval : validate_extension inP = true)
    (herr : (decrypt_zip_with_rsa fs inP kp).1 = .err e)
    (he : e = ArchError.keyUnwrapError ∨ e = ArchError.authenticationFailed) :
    extract_files fs inP kp od = (.err e, fs, (decrypt_zip_with_rsa fs inP kp).2) ∧
    ∀ ev ∈ (decrypt_zip_with_rsa fs inP kp).2, ∃ p, ev = FsEvent.readF p := by
  refine ⟨?_, decrypt_events_reads fs inP kp⟩
  rcases hd : decrypt_zip_with_rsa fs inP kp with ⟨r, evs⟩
  rw [hd] at herr
  simp only at herr
  subst herr
  unfold extract_files
  rw [if_neg (by simp [hval]), hd]

/-- C5 witness: decrypting with a non-matching private key fails with the
key-unwrap error and extraction changes nothing. -/
theorem C5_failed_decrypt_writes_nothing_witness :
    (validate_extension fxOut = true ∧
      (decrypt_zip_with_rsa fxFsWrongKey fxOut fxWrong).1 = .err .keyUnwrapError) ∧
    (extract_files fxFsWrongKey fxOut fxWrong fxDest =
        (.err .keyUnwrapError, fxFsWrongKey, (decrypt_zip_with_rsa fxFsWrongKey fxOut fxWrong).2) ∧
      ∀ ev ∈ (decrypt_zip_with_rsa fxFsWrongKey fxOut fxWrong).2, ∃ p, ev = FsEvent.readF p) :=
  ⟨⟨by decide, by decide⟩,
    C5_failed_decrypt_writes_nothing fxFsWrongKey fxOut fxWrong fxDest .keyUnwrapError
      (by decide) (by decide) (Or.inl rfl)⟩

theorem take_len_append {α : Type} (a b : List α) : (a ++ b).take a.length = a := by
  induction a with
  | nil => simp
  | cons x a ih => simp [ih]

theorem drop_len_append {α : Type} (a b : List α) : (a ++ b).drop a.length = b := by
  induction a with
  | nil => simp
  | cons x a ih => simpa using ih

theorem take_app_le {α : Type} (a b : List α) (k : Nat) (h : k ≤ a.length) :
    (a ++ b).take k = a.take k := by
  induction a generalizing k with
  | nil =>
    simp at h
    simp [h]
  | cons x a ih =>
    cases k with
    | zero => simp
    | succ j =>
      simp only [List.cons_append, List.take_succ_cons]
      rw [ih j (by simpa using h)]

theorem take_app_plus {α : Type} (a b : List α) (k : Nat) :
    (a ++ b).take (a.length + k) = a ++ b.take k := by
  induction a with
  | nil => simp
  | cons x a ih =>
    simp only [List.cons_append, List.length_cons]
    have hs : a.length + 1 + k = (a.length + k) + 1 := by omega
    rw [hs, List.take_succ_cons, ih]

theorem dropLast_app_ne {α : Type} (a b : List α) (hb : b ≠ []) :
    (a ++ b).dropLast = a ++ b.dropLast := by
  induction a with
  | nil => simp
  | cons x a ih =>
    have hne : a ++ b ≠ [] := by
      intro hcon
      rcases List.append_eq_nil.1 hcon with ⟨-, h2⟩
      exact hb h2
    cases hab : a ++ b with
    | nil => exact absurd hab hne
    | cons y ys =>
      simp only [List.cons_append, hab, List.dropLast_cons₂]
      rw [← hab, ih]

theorem nthByte_flip_at (pre suf : Bytes) (x : Nat) :
    nthByte (pre ++ x :: suf) pre.length = x := by
  have h := nthByte_append_right pre (x :: suf) 0
  simpa using h

theorem nthByte_flip_ne (pre suf : Bytes) (x y : Nat) (i : Nat) (h : i ≠ pre.length) :
    nthByte (pre ++ x :: suf) i = nthByte (pre ++ y :: suf) i := by
  rcases Nat.lt_or_ge i pre.length with hlt | hge
  · rw [nthByte_append_left _ _ _ hlt, nthByte_append_left _ _ _ hlt]
  · obtain ⟨k, rfl⟩ : ∃ k, i = pre.length + (k + 1) := ⟨i - pre.length - 1, by omega⟩
    rw [nthByte_append_right, nthByte_append_right]
    rfl

theorem mapEnum_lt (key nonce : Bytes) (s : Nat) (l : Bytes) (i : Nat) (h : i < l.length) :
    nthByte (mapEnum (mixByte key nonce) s l) i < 256 := by
  rw [nthByte_mapEnum _ _ _ _ h]
  exact Nat.mod_lt _ (by omega)

theorem aead_tamper (key nonce pt pre suf : Bytes) (old v : Nat)
    (h : aeadEncrypt key nonce pt = pre ++ old :: suf)
    (hv : v ≠ old) (hv2 : v < 256) :
    aeadDecrypt key nonce (pre ++ v :: suf) = none := by
  have hE : mapEnum (mixByte key nonce) 0 pt ++
      mapEnum (mixByte key nonce) 0 (mapEnum (mixByte key nonce) 0 pt) =
      pre ++ old :: suf := by simpa [aeadEncrypt] using h
  set body := mapEnum (mixByte key nonce) 0 pt with hbody
  set tag := mapEnum (mixByte key nonce) 0 body with htag
  have hlt : tag.length = body.length := length_mapEnum _ _ _
  have hlE : body.length + tag.length = pre.length + (suf.length + 1) := by
    have h1 : (body ++ tag).length = (pre ++ old :: suf).length := by rw [hE]
    simpa [List.length_append] using h1
  have hjlt : pre.length < body.length + tag.length := by omega
  have hm0 : 0 < body.length := by omega
  have hlct : (pre ++ v :: suf).length = body.length + tag.length := by
    simp [List.length_append]
    omega
  simp only [aeadDecrypt]
  have heven : (pre ++ v :: suf).length % 2 = 0 := by rw [hlct]; omega
  rw [if_pos heven]
  have hn : (pre ++ v :: suf).length / 2 = body.length := by rw [hlct]; omega
  rw [hn]
  rw [if_neg]
  intro heq
  have hlen2 : ((pre ++ v :: suf).take body.length).length = body.length := by
    simp [List.length_take]
    omega
  rcases Nat.lt_or_ge pre.length body.length with hcase | hcase
  · -- the flip is in the masked body half
    have lhs1 : nthByte ((pre ++ v :: suf).drop body.length) pre.length =
        mixByte key nonce pre.length (nthByte body pre.length) := by
      rw [nthByte_drop]
      rw [nthByte_flip_ne pre suf v old _ (by omega)]
      rw [← hE]
      rw [nthByte_append_right]
      rw [htag, nthByte_mapEnum _ _ _ _ hcase]
      simp
    have rhs1 : nthByte (mapEnum (mixByte key nonce) 0 ((pre ++ v :: suf).take body.length))
        pre.length = mixByte key nonce pre.length v := by
      rw [nthByte_mapEnum _ _ _ _ (by rw [hlen2]; exact hcase)]
      rw [nthByte_take _ _ _ hcase]
      rw [nthByte_flip_at]
      simp
    have h1 := congrArg (fun l => nthByte l pre.length) heq
    simp only at h1
    rw [lhs1, rhs1] at h1
    have hbj : nthByte body pre.length = old := by
      have h2 : nthByte (body ++ tag) pre.length = old := by
        rw [hE]
        exact nthByte_flip_at pre suf old
      rw [nthByte_append_left _ _ _ hcase] at h2
      exact h2
    have hbound : nthByte body pre.length < 256 := by
      rw [hbody]
      refine mapEnum_lt key nonce 0 pt pre.length ?_
      have : body.length = pt.length := by rw [hbody]; exact length_mapEnum _ _ _
      omega
    rw [hbj] at h1
    rw [hbj] at hbound
    simp only [mixByte] at h1
    omega
  · -- the flip is in the tag half
    have hidx : pre.length - body.length < body.length := by omega
    have lhs2 : nthByte ((pre ++ v :: suf).drop body.length) (pre.length - body.length) = v := by
      rw [nthByte_drop]
      have h4 : body.length + (pre.length - body.length) = pre.length := by omega
      rw [h4]
      exact nthByte_flip_at pre suf v
    have rhs2 : nthByte (mapEnum (mixByte key nonce) 0 ((pre ++ v :: suf).take body.length))
        (pre.length - body.length) = old := by
      rw [nthByte_mapEnum _ _ _ _ (by rw [hlen2]; exact hidx)]
      rw [nthByte_take _ _ _ hidx]
      rw [nthByte_flip_ne pre suf v old _ (by omega)]
      rw [← hE]
      rw [nthByte_append_left _ _ _ hidx]
      have htg : mixByte key nonce (0 + (pre.length - body.length))
          (nthByte body (pre.length - body.length)) =
          nthByte tag (pre.length - body.length) := by
        rw [htag, nthByte_mapEnum _ _ _ _ hidx]
      rw [htg]
      have h3 : nthByte (body ++ tag) (body.length + (pre.length - body.length)) =
          nthByte tag (pre.length - body.length) := nthByte_append_right _ _ _
      rw [← h3]
      have h4 : body.length + (pre.length - body.length) = pre.length := by omega
      rw [h4, hE]
      exact nthByte_flip_at pre suf old
    have h1 := congrArg (fun l => nthByte l (pre.length - body.length)) heq
    simp only at h1
    rw [lhs2, rhs2] at h1
    exact hv h1

/-- C2: flipping any single byte in the ciphertext region of a sealed
container (the bytes after the nonce, length field and wrapped key)
makes `decrypt_zip_with_rsa` fail with the authentication error; it
never returns plaintext for the tampered container. -/
theorem C2_tamper_detection (fs : FS) (aes_key nonce zip_data pre suf : Bytes)
    (kid old v : Nat) (inP kp : PathC)
    (hkl : aes_key.length = 32)
    (hct : aeadEncrypt aes_key nonce zip_data = pre ++ old :: suf)
    (hv : v ≠ old) (hv2 : v < 256)
    (hfile : fileContent fs inP =
      some (container_bytes nonce (rsa_encrypt kid aes_key) (pre ++ v :: suf)))
    (hpem : fileContent fs kp = some [2, kid])
    (hnlen : nonce.length = 12) :
    (decrypt_zip_with_rsa fs inP kp).1 = .err .authenticationFailed := by
  have hw : (rsa_encrypt kid aes_key).length = 33 := by simp [rsa_encrypt, hkl]
  have hbe : be16 (as_u16 (rsa_encrypt kid aes_key).length) = [0, 33] := by
    rw [hw]
    rfl
  have hdata : container_bytes nonce (rsa_encrypt kid aes_key) (pre ++ v :: suf) =
      nonce ++ ([0, 33] ++ (rsa_encrypt kid aes_key ++ (pre ++ v :: suf))) := by
    rw [container_bytes, hbe]
    simp [List.append_assoc]
  rw [hdata] at hfile
  set w := rsa_encrypt kid aes_key with hwdef
  set ct2 := pre ++ v :: suf with hctdef
  set data := nonce ++ ([0, 33] ++ (w ++ ct2)) with hdatadef
  have hlen : data.length = 47 + ct2.length := by
    simp [hdatadef, List.length_append, hnlen, hw]
    omega
  have h12 : nthByte data 12 = 0 := by
    have h := nthByte_append_right nonce ([0, 33] ++ (w ++ ct2)) 0
    rw [hnlen] at h
    simpa using h
  have h13 : nthByte data 13 = 33 := by
    have h := nthByte_append_right nonce ([0, 33] ++ (w ++ ct2)) 1
    rw [hnlen] at h
    simpa using h
  have hks : de16 (nthByte data 12) (nthByte data 13) = 33 := by
    rw [h12, h13]
    rfl
  have htake12 : data.take 12 = nonce := by
    rw [hdatadef, ← hnlen]
    exact take_len_append _ _
  have hdrop14 : data.drop 14 = w ++ ct2 := by
    have hre : data = (nonce ++ [0, 33]) ++ (w ++ ct2) := by
      rw [hdatadef]
      simp [List.append_assoc]
    rw [hre]
    have hl : (nonce ++ [0, 33]).length = 14 := by simp [hnlen]
    rw [show (14 : Nat) = (nonce ++ [0, 33]).length from hl.symm]
    exact drop_len_append _ _
  have htakew : (w ++ ct2).take 33 = w := by
    rw [show (33 : Nat) = w.length from hw.symm]
    exact take_len_append _ _
  have hdrop47 : data.drop (14 + 33) = ct2 := by
    have hre : data = ((nonce ++ [0, 33]) ++ w) ++ ct2 := by
      rw [hdatadef]
      simp [List.append_assoc]
    rw [hre]
    have hl : ((nonce ++ [0, 33]) ++ w).length = 14 + 33 := by
      simp [List.length_append, hnlen, hw]
    rw [show (14 + 33 : Nat) = ((nonce ++ [0, 33]) ++ w).length from hl.symm]
    exact drop_len_append _ _
  have hrsa : rsa_decrypt kid w = some aes_key := by
    rw [hwdef]
    simp [rsa_decrypt, rsa_encrypt]
  have haead : aeadDecrypt aes_key nonce ct2 = none :=
    aead_tamper aes_key nonce zip_data pre suf old v hct hv hv2
  have hnn : extract_nonce data = .ok (data.take 12) := by
    rw [extract_nonce, if_pos (by omega)]
  have hp : parse_private_key_pem [2, kid] = some kid := rfl
  simp only [decrypt_zip_with_rsa, hfile, hpem, hp, hnn]
  rw [if_neg (by omega)]
  simp only [hks]
  rw [if_neg (by omega)]
  rw [hdrop14, htakew, hrsa]
  simp only [hkl]
  rw [if_neg (by omega)]
  rw [hdrop47, htake12, haead]

/-- C2 witness: a concrete container with one flipped ciphertext byte is
rejected with the authentication error. -/
theorem C2_tamper_detection_witness :
    (fxKey.length = 32 ∧
      aeadEncrypt fxKey fxNonce [1, 2, 3] = fxTamperPre ++ fxTamperOld :: fxTamperSuf ∧
      fxTamperV ≠ fxTamperOld ∧
      fxTamperV < 256 ∧
      fileContent fxFsTampered fxOut =
        some (container_bytes fxNonce (rsa_encrypt 5 fxKey)
          (fxTamperPre ++ fxTamperV :: fxTamperSuf)) ∧
      fileContent fxFsTampered fxPriv = some [2, 5] ∧
      fxNonce.length = 12) ∧
    (decrypt_zip_with_rsa fxFsTampered fxOut fxPriv).1 = .err .authenticationFailed :=
  ⟨⟨by decide, by decide, by decide, by decide, by decide, by decide, by decide⟩,
    C2_tamper_detection fxFsTampered fxKey fxNonce [1, 2, 3] fxTamperPre fxTamperSuf
      5 fxTamperOld fxTamperV fxOut fxPriv
      (by decide) (by decide) (by decide) (by decide) (by decide) (by decide) (by decide)⟩

theorem encodeLenAux_lt (fuel n : Nat) : ∀ b ∈ encodeLenAux fuel n, b < 256 := by
  induction fuel generalizing n with
  | zero =>
    intro b hb
    simp [encodeLenAux] at hb
    omega
  | succ fuel ih =>
    intro b hb
    rw [encodeLenAux] at hb
    by_cases h : n < 128
    · rw [if_pos h] at hb
      simp at hb
      omega
    · rw [if_neg h] at hb
      rcases List.mem_cons.1 hb with rfl | hb2
      · have := Nat.mod_lt n (show 0 < 128 by omega)
        omega
      · exact ih _ b hb2

theorem encodeLen_lt (n : Nat) : ∀ b ∈ encodeLen n, b < 256 := encodeLenAux_lt n n

theorem decode_encodeAux (fuel : Nat) : ∀ n rest, n ≤ fuel →
    decodeLen (encodeLenAux fuel n ++ rest) = some (n, rest) := by
  induction fuel with
  | zero =>
    intro n rest hn
    have h0 : n = 0 := by omega
    subst h0
    rfl
  | succ fuel ih =>
    intro n rest hn
    rw [encodeLenAux]
    by_cases h : n < 128
    · rw [if_pos h]
      simp [decodeLen, h]
    · rw [if_neg h]
      have hdivlt : n / 128 < n := Nat.div_lt_self (by omega) (by omega)
      have hrec := ih (n / 128) rest (by omega)
      have hge : ¬(n % 128 + 128 < 128) := by omega
      show decodeLen ((n % 128 + 128) :: (encodeLenAux fuel (n / 128) ++ rest)) =
        some (n, rest)
      rw [decodeLen, if_neg hge, hrec]
      simp only [Option.some.injEq, Prod.mk.injEq]
      refine ⟨?_, trivial⟩
      have := Nat.mod_add_div n 128
      omega

theorem decode_encode (n : Nat) (rest : Bytes) :
    decodeLen (encodeLen n ++ rest) = some (n, rest) :=
  decode_encodeAux n n rest (Nat.le_refl n)

theorem encodeLen_length_pos (n : Nat) : 1 ≤ (encodeLen n).length := by
  rw [encodeLen]
  cases hn : n with
  | zero => simp [encodeLenAux]
  | succ m =>
    rw [encodeLenAux]
    by_cases h : m + 1 < 128
    · rw [if_pos h]
      simp
    · rw [if_neg h]
      simp

theorem serializeEntry_length (e : ZEntry) : 2 ≤ (serializeEntry e).length := by
  rw [serializeEntry]
  have h1 := encodeLen_length_pos (strBytes e.name).length
  have h2 := encodeLen_length_pos e.content.length
  simp [List.length_append]
  omega

theorem serializeZip_length (es : List ZEntry) : es.length ≤ (serializeZip es).length := by
  induction es with
  | nil => simp [serializeZip]
  | cons e rest ih =>
    rw [serializeZip]
    have := serializeEntry_length e
    simp [List.length_append]
    omega

theorem bytesStr_strBytes (s : String) : bytesStr (strBytes s) = s := by
  rw [bytesStr, strBytes, List.map_map]
  have h : ∀ cs : List Char, cs.map (Char.ofNat ∘ Char.toNat) = cs := by
    intro cs
    induction cs with
    | nil => rfl
    | cons c rest ih => simp [ih, Char.ofNat_toNat]
  rw [h]
  cases s
  rfl

theorem parseZipAux_succ (fuel : Nat) (l : Bytes) (hl : l ≠ []) :
    parseZipAux (fuel + 1) l =
      match decodeLen l with
      | none => none
      | some (nlen, r1) =>
        if nlen ≤ r1.length then
          match decodeLen (r1.drop nlen) with
          | none => none
          | some (clen, r2) =>
            if clen ≤ r2.length then
              match parseZipAux fuel (r2.drop clen) with
              | none => none
              | some es => some (⟨bytesStr (r1.take nlen), r2.take clen⟩ :: es)
            else none
        else none := by
  cases l with
  | nil => exact absurd rfl hl
  | cons b bs => rfl

theorem parse_serializeAux (es : List ZEntry) : ∀ fuel, es.length ≤ fuel →
    parseZipAux fuel (serializeZip es) = some es := by
  induction es with
  | nil =>
    intro fuel hfuel
    cases fuel <;> rfl
  | cons e rest ih =>
    intro fuel hfuel
    cases fuel with
    | zero => simp at hfuel
    | succ fuel =>
      have hne : serializeZip (e :: rest) ≠ [] := by
        rw [serializeZip]
        intro hcon
        have h2 := serializeEntry_length e
        have hc : (serializeEntry e ++ serializeZip rest).length = 0 := by
          rw [hcon]
          rfl
        rw [List.length_append] at hc
        omega
      rw [parseZipAux_succ fuel _ hne]
      have hser : serializeZip (e :: rest) =
          encodeLen (strBytes e.name).length ++
            (strBytes e.name ++ (encodeLen e.content.length ++
              (e.content ++ serializeZip rest))) := by
        rw [serializeZip, serializeEntry]
        simp [List.append_assoc]
      rw [hser, decode_encode]
      dsimp only
      have hlen1 : (strBytes e.name).length ≤
          (strBytes e.name ++ (encodeLen e.content.length ++
            (e.content ++ serializeZip rest))).length := by
        simp [List.length_append]
      rw [if_pos hlen1]
      rw [drop_len_append (strBytes e.name) _, decode_encode]
      dsimp only
      have hlen2 : e.content.length ≤ (e.content ++ serializeZip rest).length := by
        simp [List.length_append]
      rw [if_pos hlen2]
      rw [drop_len_append e.content _]
      rw [ih fuel (by simpa using hfuel)]
      dsimp only
      rw [take_len_append (strBytes e.name) _, take_len_append e.content _]
      rw [bytesStr_strBytes]

theorem parseZip_serializeZip (es : List ZEntry) :
    parseZip (serializeZip es) = some es :=
  parse_serializeAux es (serializeZip es).length (serializeZip_length es)

theorem isPfxOf_iff (a b : List String) : isPfxOf a b = true ↔ ∃ c, b = a ++ c := by
  induction a generalizing b with
  | nil => simp [isPfxOf]
  | cons x a ih =>
    cases b with
    | nil => simp [isPfxOf]
    | cons y bs =>
      rw [isPfxOf]
      constructor
      · intro h
        rcases Bool.and_eq_true_iff.1 h with ⟨h1, h2⟩
        have hxy : x = y := by simpa using h1
        rcases (ih bs).1 h2 with ⟨c, rfl⟩
        exact ⟨c, by rw [hxy]; rfl⟩
      · rintro ⟨c, hc⟩
        have h1 : y = x := by
          have hh := congrArg (fun l => l.headD "") hc
          simpa using hh
        have h2 : bs = a ++ c := by
          have hh := congrArg List.tail hc
          simpa using hh
        exact Bool.and_eq_true_iff.2 ⟨by simp [h1], (ih bs).2 ⟨c, h2⟩⟩

theorem isPfxOf_refl (a : List String) : isPfxOf a a = true :=
  (isPfxOf_iff a a).2 ⟨[], by simp⟩

theorem isPfxOf_app (a b : List String) : isPfxOf a (a ++ b) = true :=
  (isPfxOf_iff a (a ++ b)).2 ⟨b, rfl⟩

theorem isPfxOf_trans {a b c : List String} (h1 : isPfxOf a b = true)
    (h2 : isPfxOf b c = true) : isPfxOf a c = true := by
  rcases (isPfxOf_iff a b).1 h1 with ⟨x, rfl⟩
  rcases (isPfxOf_iff _ c).1 h2 with ⟨y, rfl⟩
  exact (isPfxOf_iff _ _).2 ⟨x ++ y, by simp⟩

theorem isPfxOf_length {a b : List String} (h : isPfxOf a b = true) :
    a.length ≤ b.length := by
  rcases (isPfxOf_iff a b).1 h with ⟨c, rfl⟩
  simp [List.length_append]

theorem isPfxOf_antisymm {a b : List String} (h1 : isPfxOf a b = true)
    (h2 : isPfxOf b a = true) : a = b := by
  rcases (isPfxOf_iff a b).1 h1 with ⟨c, rfl⟩
  have hl := isPfxOf_length h2
  rw [List.length_append] at hl
  have hc : c = [] := List.length_eq_zero.1 (by omega)
  simp [hc]

theorem isPfxOf_cancel (x a b : List String) :
    isPfxOf (x ++ a) (x ++ b) = isPfxOf a b := by
  induction x with
  | nil => simp
  | cons c xs ih => simp [isPfxOf, ih]

theorem isPfxOf_take (b : List String) (k : Nat) : isPfxOf (b.take k) b = true :=
  (isPfxOf_iff _ _).2 ⟨b.drop k, by simp⟩

theorem take_eq_of_isPfxOf {a b : List String} (h : isPfxOf a b = true) :
    b.take a.length = a := by
  rcases (isPfxOf_iff a b).1 h with ⟨c, rfl⟩
  exact take_len_append a c

theorem isPfxOf_take_le (b : List String) {j k : Nat} (h : j ≤ k) :
    isPfxOf (b.take j) (b.take k) = true := by
  refine (isPfxOf_iff _ _).2 ⟨(b.take k).drop j, ?_⟩
  have hjj : b.take j = (b.take k).take j := by
    rw [List.take_take]
    congr 1
    omega
  rw [hjj, List.take_append_drop]

theorem pathLE_iff (q p : PathC) :
    pathLE q p = true ↔ q.abs = p.abs ∧ isPfxOf q.comps p.comps = true := by
  rw [pathLE, Bool.and_eq_true_iff]
  constructor
  · rintro ⟨h1, h2⟩
    exact ⟨by simpa using h1, h2⟩
  · rintro ⟨h1, h2⟩
    exact ⟨by simpa using h1, h2⟩

theorem pathLT_iff (q p : PathC) :
    pathLT q p = true ↔ pathLE q p = true ∧ q ≠ p := by
  rw [pathLT, Bool.and_eq_true_iff]
  constructor
  · rintro ⟨h1, h2⟩
    refine ⟨h1, ?_⟩
    simpa using h2
  · rintro ⟨h1, h2⟩
    refine ⟨h1, ?_⟩
    simpa using h2

theorem pathLE_refl (p : PathC) : pathLE p p = true :=
  (pathLE_iff p p).2 ⟨rfl, isPfxOf_refl _⟩

theorem entryPath_abs (od : PathC) (s : String) : (entryPath od s).abs = od.abs := rfl

theorem entryPath_comps (od : PathC) (s : String) :
    (entryPath od s).comps = od.comps ++ comps s := rfl

theorem pathLE_entryPath_entryPath (od : PathC) (a b : String) :
    pathLE (entryPath od a) (entryPath od b) = isPfxOf (comps a) (comps b) := by
  rw [pathLE]
  simp only [entryPath_abs, entryPath_comps, beq_self_eq_true, Bool.true_and]
  rw [isPfxOf_cancel]

theorem pathLT_od_entryPath (od : PathC) (s : String) (hs : comps s ≠ []) :
    pathLT od (entryPath od s) = true := by
  rw [pathLT_iff]
  constructor
  · exact (pathLE_iff _ _).2 ⟨rfl, isPfxOf_app _ _⟩
  · intro h
    have hc := congrArg (fun p => p.comps.length) h
    simp only [entryPath_comps, List.length_append] at hc
    have : comps s = [] := List.length_eq_zero.1 (by omega)
    exact hs this

theorem splitSlashes_ne_nil (cs : List Char) : splitSlashes cs ≠ [] := by
  induction cs with
  | nil => simp [splitSlashes]
  | cons c rest ih =>
    rw [splitSlashes]
    by_cases hc : c = '/'
    · rw [if_pos hc]
      simp
    · rw [if_neg hc]
      cases hs : splitSlashes rest with
      | nil => simp
      | cons g gs => simp

theorem splitSlashes_append_sf (g cs : List Char) (hg : ∀ ch ∈ g, ¬(ch = '/')) :
    ∃ h t, splitSlashes cs = h :: t ∧ splitSlashes (g ++ cs) = (g ++ h) :: t := by
  induction g with
  | nil =>
    cases hs : splitSlashes cs with
    | nil => exact absurd hs (splitSlashes_ne_nil cs)
    | cons h t => exact ⟨h, t, rfl, by simpa using hs⟩
  | cons c g2 ih =>
    have hc : ¬(c = '/') := hg c (by simp)
    obtain ⟨h, t, hcs, happ⟩ := ih (fun ch hch => hg ch (by simp [hch]))
    refine ⟨h, t, hcs, ?_⟩
    rw [List.cons_append, splitSlashes, if_neg hc, happ]
    rfl

theorem splitJoin (gs : List (List Char)) (hne : gs ≠ [])
    (hg : ∀ g ∈ gs, g ≠ [] ∧ ∀ ch ∈ g, ¬(ch = '/')) :
    (splitSlashes (joinSlash gs)).filter (fun g => g ≠ []) = gs := by
  induction gs with
  | nil => exact absurd rfl hne
  | cons g rest ih =>
    cases rest with
    | nil =>
      obtain ⟨hg1, hg2⟩ := hg g (by simp)
      obtain ⟨h, t, hcs, happ⟩ := splitSlashes_append_sf g [] hg2
      have hemp : splitSlashes ([] : List Char) = [[]] := rfl
      rw [hemp] at hcs
      have hh : h = [] := by
        have := congrArg (fun l => l.headD [' ']) hcs
        simpa using this
      have ht : t = [] := by
        have := congrArg List.tail hcs
        simpa using this
      subst hh
      subst ht
      show (splitSlashes (joinSlash [g])).filter (fun x => x ≠ []) = [g]
      have hj : joinSlash [g] = g ++ [] := by simp [joinSlash]
      rw [hj, happ]
      simp [hg1]
    | cons g2 rest2 =>
      obtain ⟨hg1, hg2⟩ := hg g (by simp)
      have hj : joinSlash (g :: g2 :: rest2) = g ++ ('/' :: joinSlash (g2 :: rest2)) := rfl
      obtain ⟨h, t, hcs, happ⟩ :=
        splitSlashes_append_sf g ('/' :: joinSlash (g2 :: rest2)) hg2
      have hsl : splitSlashes ('/' :: joinSlash (g2 :: rest2)) =
          [] :: splitSlashes (joinSlash (g2 :: rest2)) := by
        rw [splitSlashes, if_pos rfl]
      rw [hsl] at hcs
      have hh : h = [] := by
        have := congrArg (fun l => l.headD [' ']) hcs
        simpa using this
      have ht : splitSlashes (joinSlash (g2 :: rest2)) = t := by
        have hh2 := congrArg List.tail hcs
        simpa using hh2
      subst hh
      rw [hj, happ, ← ht]
      have hrec := ih (by simp) (fun x hx => hg x (by simp [hx]))
      simp only [List.append_nil]
      rw [List.filter_cons]
      rw [if_pos (by simpa using hg1)]
      rw [hrec]

theorem toList_mk (l : List Char) : (String.mk l).toList = l := rfl

theorem mk_toList (s : String) : String.mk s.toList = s := by
  cases s
  rfl

theorem toList_ne_nil_of_ne_empty (c : String) (h : ¬(c = "")) : c.toList ≠ [] := by
  intro hcon
  apply h
  have := congrArg String.mk hcon
  rw [mk_toList] at this
  exact this

theorem goodComp_unpack (c : String) (h : goodComp c = true) :
    c.toList ≠ [] ∧ ∀ ch ∈ c.toList, ¬(ch = '/') ∧ ch.toNat < 256 := by
  rw [goodComp, Bool.and_eq_true_iff] at h
  obtain ⟨h1, h2⟩ := h
  have hne : ¬(c = "") := by simpa using h1
  refine ⟨toList_ne_nil_of_ne_empty c hne, ?_⟩
  intro ch hch
  have h3 := List.all_eq_true.1 h2 ch hch
  rw [Bool.and_eq_true_iff] at h3
  obtain ⟨h4, h5⟩ := h3
  exact ⟨by simpa using h4, by simpa using h5⟩

theorem comps_nameOfParts (parts : List String) (hne : parts ≠ [])
    (hp : ∀ c ∈ parts, goodComp c = true) : comps (nameOfParts parts) = parts := by
  have hsj : (splitSlashes (joinSlash (parts.map String.toList))).filter
      (fun g => g ≠ []) = parts.map String.toList := by
    refine splitJoin (parts.map String.toList) (by simpa using hne) ?_
    intro g hgm
    rcases List.mem_map.1 hgm with ⟨c, hc, rfl⟩
    obtain ⟨h1, h2⟩ := goodComp_unpack c (hp c hc)
    exact ⟨h1, fun ch hch => (h2 ch hch).1⟩
  show ((splitSlashes (joinSlash (parts.map String.toList))).filter
      (fun g => g ≠ [])).map String.mk = parts
  rw [hsj, List.map_map]
  have : ∀ p ∈ parts, (String.mk ∘ String.toList) p = id p := by
    intro p hpm
    simp [mk_toList]
  rw [List.map_congr_left this, List.map_id]

theorem nameOfParts_single (c : String) : nameOfParts [c] = c := by
  rw [nameOfParts]
  show String.mk (joinSlash [c.toList]) = c
  have : joinSlash [c.toList] = c.toList := rfl
  rw [this, mk_toList]

theorem comps_single (c : String) (h : goodComp c = true) : comps c = [c] := by
  conv_lhs => rw [← nameOfParts_single c]
  exact comps_nameOfParts [c] (by simp) (by simpa using h)

theorem joinSlash_head (g : List Char) (gs : List (List Char)) :
    ∃ r, joinSlash (g :: gs) = g ++ r := by
  cases gs with
  | nil => exact ⟨[], by simp [joinSlash]⟩
  | cons g2 rest => exact ⟨'/' :: joinSlash (g2 :: rest), rfl⟩

theorem startsSlash_nameOfParts (parts : List String) (hne : parts ≠ [])
    (hp : ∀ c ∈ parts, goodComp c = true) : startsSlash (nameOfParts parts) = false := by
  cases parts with
  | nil => exact absurd rfl hne
  | cons p0 rest =>
    obtain ⟨h1, h2⟩ := goodComp_unpack p0 (hp p0 (by simp))
    obtain ⟨r, hr⟩ := joinSlash_head p0.toList (rest.map String.toList)
    rw [startsSlash, nameOfParts]
    show (match (String.mk (joinSlash (p0.toList :: rest.map String.toList))).toList with
      | [] => false
      | c :: _ => decide (c = '/')) = false
    rw [toList_mk, hr]
    cases hc : p0.toList with
    | nil => exact absurd hc h1
    | cons c0 cs =>
      have hc0 := (h2 c0 (by rw [hc]; simp)).1
      simp [hc0]

theorem lastChar_append (a g : List Char) (hg : g ≠ []) :
    lastChar (a ++ g) = lastChar g := by
  induction a with
  | nil => simp
  | cons x a2 ih =>
    have hne : a2 ++ g ≠ [] := by
      intro hcon
      exact hg (List.append_eq_nil.1 hcon).2
    cases hab : a2 ++ g with
    | nil => exact absurd hab hne
    | cons y ys =>
      show lastChar (x :: (a2 ++ g)) = lastChar g
      rw [hab]
      show lastChar (y :: ys) = lastChar g
      rw [← hab, ih]

theorem lastChar_mem (g : List Char) (hg : g ≠ []) :
    ∃ c, lastChar g = some c ∧ c ∈ g := by
  induction g with
  | nil => exact absurd rfl hg
  | cons x rest ih =>
    cases rest with
    | nil => exact ⟨x, rfl, by simp⟩
    | cons y ys =>
      obtain ⟨c, hc, hm⟩ := ih (by simp)
      exact ⟨c, hc, by simp [hm]⟩

theorem joinSlash_snoc (gs : List (List Char)) (g : List Char) :
    ∃ a, joinSlash (gs ++ [g]) = a ++ g := by
  induction gs with
  | nil => exact ⟨[], by simp [joinSlash]⟩
  | cons x rest ih =>
    obtain ⟨a, ha⟩ := ih
    cases hr : rest ++ [g] with
    | nil =>
      have : rest ++ [g] ≠ [] := by simp
      exact absurd hr this
    | cons y ys =>
      refine ⟨x ++ '/' :: a, ?_⟩
      show joinSlash (x :: (rest ++ [g])) = (x ++ '/' :: a) ++ g
      rw [hr]
      show x ++ '/' :: joinSlash (y :: ys) = (x ++ '/' :: a) ++ g
      rw [← hr, ha]
      simp

theorem isDirName_nameOfParts (parts : List String) (hne : parts ≠ [])
    (hp : ∀ c ∈ parts, goodComp c = true) : isDirName (nameOfParts parts) = false := by
  rcases List.eq_nil_or_concat parts with rfl | ⟨init, lastP, rfl⟩
  · exact absurd rfl hne
  · rw [List.concat_eq_append] at hne hp ⊢
    obtain ⟨h1, h2⟩ := goodComp_unpack lastP (hp lastP (by simp))
    have hmap : (init ++ [lastP]).map String.toList =
        init.map String.toList ++ [lastP.toList] := by simp
    obtain ⟨a, ha⟩ := joinSlash_snoc (init.map String.toList) lastP.toList
    obtain ⟨c, hc, hm⟩ := lastChar_mem lastP.toList h1
    rw [isDirName, nameOfParts, hmap, toList_mk, ha, lastChar_append _ _ h1, hc]
    have := (h2 c hm).1
    simp [this]

theorem relName_nameOfParts (parts : List String) (hne : parts ≠ [])
    (hp : ∀ c ∈ parts, goodComp c = true) : relName (nameOfParts parts) = true := by
  rw [relName, startsSlash_nameOfParts parts hne hp, comps_nameOfParts parts hne hp]
  simp [hne]

theorem pathC_ne_of_len {a b : Bool} {c d : List String} (h : c.length ≠ d.length) :
    (⟨a, c⟩ : PathC) ≠ ⟨b, d⟩ := by
  intro hcon
  rw [PathC.mk.injEq] at hcon
  exact h (by rw [hcon.2])

theorem nodeAt_root (fs : FS) (p : PathC) (h : p.comps = []) : nodeAt fs p = some .dir := by
  simp [nodeAt, h]

theorem take_ne_nil_of_le {l : List String} {k : Nat} (h1 : 1 ≤ k) (h2 : k ≤ l.length) :
    l.take k ≠ [] := by
  intro hcon
  have hl := congrArg List.length hcon
  rw [List.length_take] at hl
  simp only [List.length_nil] at hl
  omega

theorem mkdirList_spec (ab : Bool) : ∀ (rest done : List String) (fs : FS),
    (∀ k, 1 ≤ k → k ≤ rest.length → nodeOk (nodeAt fs ⟨ab, done ++ rest.take k⟩)) →
    ∃ fs', mkdirList fs ab done rest = .ok fs' ∧
      (∀ k, 1 ≤ k → k ≤ rest.length → nodeAt fs' ⟨ab, done ++ rest.take k⟩ = some .dir) ∧
      (∀ q : PathC, (∀ k, 1 ≤ k → k ≤ rest.length → q ≠ ⟨ab, done ++ rest.take k⟩) →
        nodeAt fs' q = nodeAt fs q) := by
  intro rest
  induction rest with
  | nil =>
    intro done fs hchain
    exact ⟨fs, rfl, fun k h1 h2 => by simp at h2; omega, fun q hq => rfl⟩
  | cons c cs ih =>
    intro done fs hchain
    have htake1 : (c :: cs).take 1 = [c] := rfl
    have hq1 := hchain 1 (by omega) (by simp)
    rw [htake1] at hq1
    have hplen : ∀ k : Nat, ((done ++ [c]) ++ cs.take k) = done ++ (c :: cs).take (k + 1) := by
      intro k
      rw [List.take_succ_cons]
      simp
    rcases hq1 with hnone | hdir
    · -- the component is missing: it is created, then the walk continues
      have hstep : mkdirList fs ab done (c :: cs) =
          mkdirList (fs.set ⟨ab, done ++ [c]⟩ .dir) ab (done ++ [c]) cs := by
        rw [mkdirList, hnone]
      have hchain2 : ∀ k, 1 ≤ k → k ≤ cs.length →
          nodeOk (nodeAt (fs.set ⟨ab, done ++ [c]⟩ .dir) ⟨ab, (done ++ [c]) ++ cs.take k⟩) := by
        intro k h1 h2
        have hne : (⟨ab, (done ++ [c]) ++ cs.take k⟩ : PathC) ≠ ⟨ab, done ++ [c]⟩ := by
          refine pathC_ne_of_len ?_
          simp only [List.length_append, List.length_take, List.length_cons,
            List.length_nil]
          omega
        rw [nodeAt_set_ne _ _ _ _ hne, hplen k]
        exact hchain (k + 1) (by omega) (by rw [List.length_cons]; omega)
      obtain ⟨fs', hok, P1, P2⟩ := ih (done ++ [c]) (fs.set ⟨ab, done ++ [c]⟩ .dir) hchain2
      refine ⟨fs', by rw [hstep]; exact hok, ?_, ?_⟩
      · intro k h1 h2
        rcases Nat.lt_or_ge k 2 with hk | hk
        · have hk1 : k = 1 := by omega
          subst hk1
          rw [htake1]
          have hq1ne : ∀ j, 1 ≤ j → j ≤ cs.length →
              (⟨ab, done ++ [c]⟩ : PathC) ≠ ⟨ab, (done ++ [c]) ++ cs.take j⟩ := by
            intro j hj1 hj2
            refine pathC_ne_of_len ?_
            simp only [List.length_append, List.length_take, List.length_cons,
              List.length_nil]
            omega
          rw [P2 _ hq1ne]
          exact nodeAt_set_self fs _ _ (by simp)
        · obtain ⟨j, rfl⟩ : ∃ j, k = j + 1 := ⟨k - 1, by omega⟩
          rw [← hplen j]
          refine P1 j (by omega) ?_
          rw [List.length_cons] at h2
          omega
      · intro q hq
        have hq2 : ∀ k, 1 ≤ k → k ≤ cs.length → q ≠ ⟨ab, (done ++ [c]) ++ cs.take k⟩ := by
          intro k h1 h2
          rw [hplen k]
          exact hq (k + 1) (by omega) (by rw [List.length_cons]; omega)
        rw [P2 q hq2]
        refine nodeAt_set_ne _ _ _ _ ?_
        have := hq 1 (by omega) (by simp)
        rw [htake1] at this
        exact this
    · -- the component already is a directory: the walk continues unchanged
      have hstep : mkdirList fs ab done (c :: cs) = mkdirList fs ab (done ++ [c]) cs := by
        rw [mkdirList, hdir]
      have hchain2 : ∀ k, 1 ≤ k → k ≤ cs.length →
          nodeOk (nodeAt fs ⟨ab, (done ++ [c]) ++ cs.take k⟩) := by
        intro k h1 h2
        rw [hplen k]
        exact hchain (k + 1) (by omega) (by rw [List.length_cons]; omega)
      obtain ⟨fs', hok, P1, P2⟩ := ih (done ++ [c]) fs hchain2
      refine ⟨fs', by rw [hstep]; exact hok, ?_, ?_⟩
      · intro k h1 h2
        rcases Nat.lt_or_ge k 2 with hk | hk
        · have hk1 : k = 1 := by omega
          subst hk1
          rw [htake1]
          have hq1ne : ∀ j, 1 ≤ j → j ≤ cs.length →
              (⟨ab, done ++ [c]⟩ : PathC) ≠ ⟨ab, (done ++ [c]) ++ cs.take j⟩ := by
            intro j hj1 hj2
            refine pathC_ne_of_len ?_
            simp only [List.length_append, List.length_take, List.length_cons,
              List.length_nil]
            omega
          rw [P2 _ hq1ne]
          exact hdir
        · obtain ⟨j, rfl⟩ : ∃ j, k = j + 1 := ⟨k - 1, by omega⟩
          rw [← hplen j]
          refine P1 j (by omega) ?_
          rw [List.length_cons] at h2
          omega
      · intro q hq
        refine P2 q ?_
        intro k h1 h2
        rw [hplen k]
        exact hq (k + 1) (by omega) (by rw [List.length_cons]; omega)

theorem mkdirAll_spec (fs : FS) (p : PathC)
    (hchain : ∀ k, 1 ≤ k → k ≤ p.comps.length → nodeOk (nodeAt fs ⟨p.abs, p.comps.take k⟩)) :
    ∃ fs', mkdirAll fs p = .ok fs' ∧
      (∀ k, k ≤ p.comps.length → nodeAt fs' ⟨p.abs, p.comps.take k⟩ = some .dir) ∧
      (∀ q, pathLE q p = false ∨ q.comps = [] → nodeAt fs' q = nodeAt fs q) := by
  have hchain2 : ∀ k, 1 ≤ k → k ≤ p.comps.length →
      nodeOk (nodeAt fs ⟨p.abs, [] ++ p.comps.take k⟩) := by
    intro k h1 h2
    simpa using hchain k h1 h2
  obtain ⟨fs', hok, P1, P2⟩ := mkdirList_spec p.abs p.comps [] fs hchain2
  refine ⟨fs', hok, ?_, ?_⟩
  · intro k h2
    rcases Nat.eq_zero_or_pos k with rfl | hk
    · exact nodeAt_root fs' _ (by simp)
    · have := P1 k (by omega) h2
      simpa using this
  · intro q hq
    refine P2 q ?_
    intro k h1 h2 hcon
    rcases hq with hle | hnil
    · have hle2 : pathLE q p = true := by
        rw [hcon]
        refine (pathLE_iff _ _).2 ⟨rfl, ?_⟩
        simpa using isPfxOf_take p.comps k
      rw [hle2] at hle
      exact absurd hle (by simp)
    · rw [hcon] at hnil
      exact take_ne_nil_of_le h1 h2 hnil

theorem createFile_spec (fs : FS) (p : PathC) (c : Bytes) (hp : p.comps ≠ [])
    (hpar : nodeAt fs (parentOf p) = some .dir)
    (hat : nodeAt fs p = none ∨ ∃ c0, nodeAt fs p = some (.file c0)) :
    createFile fs p c = .ok (fs.set p (.file c)) := by
  rw [createFile, if_neg hp, hpar]
  rcases hat with hnone | ⟨c0, hfile⟩
  · rw [hnone]
  · rw [hfile]

theorem relName_unfold {s : String} (h : relName s = true) :
    startsSlash s = false ∧ comps s ≠ [] := by
  rw [relName, Bool.and_eq_true_iff] at h
  obtain ⟨h1, h2⟩ := h
  constructor
  · simpa using h1
  · intro hcon
    rw [hcon] at h2
    simp at h2

theorem entCompat_symm {e f : ZEntry} (h : entCompat e f = true) : entCompat f e = true := by
  rw [entCompat, Bool.and_eq_true_iff] at h ⊢
  exact ⟨h.2, h.1⟩

theorem entCompat_file_left {e f : ZEntry} (he : isDirName e.name = false)
    (h : entCompat e f = true) : isPfxOf (comps e.name) (comps f.name) = false := by
  rw [entCompat, Bool.and_eq_true_iff] at h
  have h1 := h.1
  rw [he, Bool.false_or] at h1
  simpa using h1

theorem entCompat_file_right {e f : ZEntry} (hf : isDirName f.name = false)
    (h : entCompat e f = true) : isPfxOf (comps f.name) (comps e.name) = false :=
  entCompat_file_left hf (entCompat_symm h)

theorem joinEntry_rel (od : PathC) (s : String) (h : startsSlash s = false) :
    joinEntry od s = entryPath od s := by
  rw [joinEntry, h]
  simp

theorem parent_entryPath (od : PathC) (s : String) (h : comps s ≠ []) :
    parentOf (entryPath od s) = ⟨od.abs, od.comps ++ (comps s).dropLast⟩ := by
  rw [parentOf]
  simp only [entryPath_abs, entryPath_comps]
  rw [dropLast_app_ne _ _ h]

theorem isPfxOf_dropLast (l : List String) : isPfxOf l.dropLast l = true := by
  cases hl : l with
  | nil => simp [List.dropLast, isPfxOf]
  | cons x xs =>
    refine (isPfxOf_iff _ _).2 ⟨[(x :: xs).getLast (by simp)], ?_⟩
    exact (List.dropLast_append_getLast (by simp)).symm

theorem isPfxOf_false_of_longer {a b : List String} (h : b.length < a.length) :
    isPfxOf a b = false := by
  cases hi : isPfxOf a b
  · rfl
  · have := isPfxOf_length hi
    omega

theorem pathLE_trans {p q r : PathC} (h1 : pathLE p q = true) (h2 : pathLE q r = true) :
    pathLE p r = true := by
  rw [pathLE_iff] at h1 h2 ⊢
  exact ⟨h1.1.trans h2.1, isPfxOf_trans h1.2 h2.2⟩

theorem pathLT_decomp {od p : PathC} (h : pathLT od p = true) :
    p.abs = od.abs ∧ ∃ r, r ≠ [] ∧ p.comps = od.comps ++ r := by
  rw [pathLT_iff] at h
  obtain ⟨hle, hne⟩ := h
  rw [pathLE_iff] at hle
  obtain ⟨habs, hpfx⟩ := hle
  rcases (isPfxOf_iff _ _).1 hpfx with ⟨r, hr⟩
  refine ⟨habs.symm, r, ?_, hr⟩
  intro hcon
  subst hcon
  apply hne
  cases od with
  | mk ab oc =>
    cases p with
    | mk pb pc =>
      simp at habs hr
      simp [habs, hr]

theorem pathLT_decomp_build (od : PathC) (r : List String) (hr : r ≠ []) :
    pathLT od ⟨od.abs, od.comps ++ r⟩ = true := by
  rw [pathLT_iff]
  constructor
  · exact (pathLE_iff _ _).2 ⟨rfl, isPfxOf_app _ _⟩
  · intro hcon
    have hc := congrArg (fun q => q.comps.length) hcon
    simp only [List.length_append] at hc
    have : r.length = 0 := by omega
    exact hr (List.length_eq_zero.1 this)

theorem UnderInv_mono {fs : FS} {od : PathC} {F : List ZEntry} {p : PathC}
    (G : List ZEntry) (h : UnderInv fs od F p) (hsub : ∀ f ∈ F, f ∈ G) :
    UnderInv fs od G p := by
  rcases h with h1 | ⟨h2, f, hf, hle, hor⟩ | ⟨f, hf, hfile, hp, hn⟩
  · exact Or.inl h1
  · exact Or.inr (Or.inl ⟨h2, f, hsub f hf, hle, hor⟩)
  · exact Or.inr (Or.inr ⟨f, hsub f hf, hfile, hp, hn⟩)

theorem nodeOk_at_under (fs : FS) (od : PathC) (F : List ZEntry) (r : List String)
    (hH1 : ∀ k, k ≤ od.comps.length → nodeOk (nodeAt fs ⟨od.abs, od.comps.take k⟩))
    (hH2 : ∀ p, pathLT od p = true → UnderInv fs od F p)
    (hblock : ∀ f ∈ F, isDirName f.name = false → isPfxOf (comps f.name) r = false) :
    nodeOk (nodeAt fs ⟨od.abs, od.comps ++ r⟩) := by
  cases hr : r with
  | nil =>
    have h := hH1 od.comps.length (Nat.le_refl _)
    rw [List.take_length] at h
    simpa using h
  | cons x xs =>
    rw [← hr]
    have hlt := pathLT_decomp_build od r (by rw [hr]; simp)
    rcases hH2 _ hlt with h1 | ⟨h2, -⟩ | ⟨f, hf, hfile, hp, -⟩
    · exact Or.inl h1
    · exact Or.inr h2
    · exfalso
      have hc : comps f.name = r := by
        have := congrArg PathC.comps hp
        simp only [entryPath_comps] at this
        exact (List.append_cancel_left this).symm
      have := hblock f hf hfile
      rw [hc] at this
      rw [isPfxOf_refl] at this
      exact absurd this (by simp)

theorem chainOk (fs : FS) (od : PathC) (F : List ZEntry) (r : List String)
    (hH1 : ∀ k, k ≤ od.comps.length → nodeOk (nodeAt fs ⟨od.abs, od.comps.take k⟩))
    (hH2 : ∀ p, pathLT od p = true → UnderInv fs od F p)
    (hblock : ∀ f ∈ F, isDirName f.name = false → isPfxOf (comps f.name) r = false) :
    ∀ k, 1 ≤ k → k ≤ (od.comps ++ r).length →
      nodeOk (nodeAt fs ⟨od.abs, (od.comps ++ r).take k⟩) := by
  intro k h1 h2
  rcases Nat.lt_or_ge od.comps.length k with hk | hk
  case inr =>
    rw [take_app_le _ _ _ hk]
    exact hH1 k hk
  case inl =>
    obtain ⟨j, rfl⟩ : ∃ j, k = od.comps.length + j := ⟨k - od.comps.length, by omega⟩
    rw [take_app_plus]
    refine nodeOk_at_under fs od F (r.take j) hH1 hH2 ?_
    intro f hf hfile
    cases hp : isPfxOf (comps f.name) (r.take j)
    · rfl
    · have := isPfxOf_trans hp (isPfxOf_take r j)
      rw [hblock f hf hfile] at this
      exact absurd this (by simp)

theorem target_none (fs : FS) (od : PathC) (F : List ZEntry) (e : ZEntry)
    (hefile : isDirName e.name = false)
    (hrel : comps e.name ≠ [])
    (hC : ∀ f ∈ F, entCompat e f = true)
    (hH2 : ∀ p, pathLT od p = true → UnderInv fs od F p) :
    nodeAt fs (entryPath od e.name) = none := by
  have hlt : pathLT od (entryPath od e.name) = true := pathLT_od_entryPath od e.name hrel
  rcases hH2 _ hlt with h1 | ⟨h2, f, hf, hle, hor⟩ | ⟨f, hf, hfile, hp, hn⟩
  · exact h1
  · exfalso
    rw [pathLE_entryPath_entryPath] at hle
    have := entCompat_file_left hefile (hC f hf)
    rw [this] at hle
    exact absurd hle (by simp)
  · exfalso
    have hc : comps e.name = comps f.name := by
      have := congrArg PathC.comps hp
      simp only [entryPath_comps] at this
      exact List.append_cancel_left this
    have h2 := entCompat_file_left hefile (hC f hf)
    rw [hc, isPfxOf_refl] at h2
    exact absurd h2 (by simp)

theorem pathLE_false_of_pfx_false {q p : PathC} (h : isPfxOf q.comps p.comps = false) :
    pathLE q p = false := by
  rw [pathLE, h]
  simp

theorem nodeAt_after_mkdir {fs fs1 : FS} {tgt : PathC}
    (Q1 : ∀ k, k ≤ tgt.comps.length → nodeAt fs1 ⟨tgt.abs, tgt.comps.take k⟩ = some .dir)
    (Q2 : ∀ q, pathLE q tgt = false ∨ q.comps = [] → nodeAt fs1 q = nodeAt fs q)
    (q : PathC) :
    (pathLE q tgt = true ∧ nodeAt fs1 q = some .dir) ∨ nodeAt fs1 q = nodeAt fs q := by
  by_cases hle : pathLE q tgt = true
  · left
    refine ⟨hle, ?_⟩
    rw [pathLE_iff] at hle
    obtain ⟨habs, hpfx⟩ := hle
    have hlen := isPfxOf_length hpfx
    have hq : q = ⟨tgt.abs, tgt.comps.take q.comps.length⟩ := by
      cases q with
      | mk qa qc =>
        simp only [PathC.mk.injEq]
        simp only at habs
        exact ⟨habs, (take_eq_of_isPfxOf hpfx).symm⟩
    rw [hq]
    exact Q1 _ hlen
  · right
    exact Q2 q (Or.inl (by simpa using hle))

theorem epath_len (od : PathC) (s : String) :
    (entryPath od s).comps.length = od.comps.length + (comps s).length := by
  rw [entryPath_comps, List.length_append]

theorem extract_master (od : PathC) :
    ∀ (entries F : List ZEntry) (fs : FS),
    (∀ e ∈ entries, relName e.name = true) →
    List.Pairwise (fun e f => entCompat e f = true) entries →
    (∀ e ∈ entries, ∀ f ∈ F, entCompat e f = true) →
    (∀ k, k ≤ od.comps.length → nodeOk (nodeAt fs ⟨od.abs, od.comps.take k⟩)) →
    (∀ p, pathLT od p = true → UnderInv fs od F p) →
    (∀ f ∈ F, PlacedAt fs od f) →
    ∃ fs' evs, extractEntries fs od entries = (.ok (), fs', evs) ∧
      (∀ f ∈ F ++ entries, PlacedAt fs' od f) ∧
      (∀ p, pathLT od p = true → UnderInv fs' od (F ++ entries) p) ∧
      (∀ k, k ≤ od.comps.length → nodeOk (nodeAt fs' ⟨od.abs, od.comps.take k⟩)) := by
  intro entries
  induction entries with
  | nil =>
    intro F fs hA hB hC hH1 hH2 hH3
    exact ⟨fs, [], rfl, by simpa using hH3, by simpa using hH2, hH1⟩
  | cons e rest ih =>
    intro F fs hA hB hC hH1 hH2 hH3
    obtain ⟨hss, hcne⟩ := relName_unfold (hA e (by simp))
    have hErest : ∀ x ∈ rest, entCompat e x = true := by
      intro x hx
      exact (List.pairwise_cons.1 hB).1 x hx
    have hBrest : List.Pairwise (fun a b => entCompat a b = true) rest :=
      (List.pairwise_cons.1 hB).2
    have hArest : ∀ x ∈ rest, relName x.name = true := fun x hx => hA x (by simp [hx])
    -- the entry's own compatibility with already-handled entries
    have hCe : ∀ f ∈ F, entCompat e f = true := fun f hf => hC e (by simp) f hf
    by_cases hdir : isDirName e.name = true
    · -- directory entry: one create_dir_all
      have hblock : ∀ f ∈ F, isDirName f.name = false →
          isPfxOf (comps f.name) (comps e.name) = false := by
        intro f hf hfile
        exact entCompat_file_right hfile (hCe f hf)
      have hchain := chainOk fs od F (comps e.name) hH1 hH2 hblock
      obtain ⟨fs1, hmk, Q1, Q2⟩ := mkdirAll_spec fs (entryPath od e.name)
        (by
          intro k h1 h2
          rw [entryPath_comps] at h2 ⊢
          exact hchain k h1 h2)
      rw [entryPath_comps] at Q1
      have Q1e : ∀ k, k ≤ (entryPath od e.name).comps.length →
          nodeAt fs1 ⟨(entryPath od e.name).abs, (entryPath od e.name).comps.take k⟩ =
            some .dir := by
        intro k hk
        rw [entryPath_abs, entryPath_comps]
        rw [epath_len, ← List.length_append] at hk
        exact Q1 k hk
      have hxe : extractEntry fs od e =
          (Except.ok fs1, [FsEvent.mkdir (entryPath od e.name)]) := by
        rw [extractEntry, joinEntry_rel od e.name hss]
        rw [if_pos hdir, hmk]
      -- the state after this entry satisfies all invariants for F ++ [e]
      have hH1mid : ∀ k, k ≤ od.comps.length →
          nodeOk (nodeAt fs1 ⟨od.abs, od.comps.take k⟩) := by
        intro k hk
        rcases nodeAt_after_mkdir Q1e Q2 ⟨od.abs, od.comps.take k⟩ with ⟨-, hd⟩ | hsame
        · exact Or.inr hd
        · rw [hsame]
          exact hH1 k hk
      have hH2mid : ∀ p, pathLT od p = true → UnderInv fs1 od (F ++ [e]) p := by
        intro p hp
        rcases nodeAt_after_mkdir Q1e Q2 p with ⟨hle, hd⟩ | hsame
        · exact Or.inr (Or.inl ⟨hd, e, by simp, hle, Or.inl hdir⟩)
        · rw [UnderInv, hsame]
          exact UnderInv_mono (F ++ [e]) (hH2 p hp) (fun f hf => by simp [hf])
      have hH3mid : ∀ f ∈ F ++ [e], PlacedAt fs1 od f := by
        intro f hf
        rcases List.mem_append.1 hf with hfF | hfe
        · have hpl := hH3 f hfF
          rw [PlacedAt] at hpl ⊢
          by_cases hfd : isDirName f.name = true
          · rw [if_pos hfd] at hpl ⊢
            intro k hk
            rcases nodeAt_after_mkdir Q1e Q2
              ⟨(entryPath od f.name).abs, (entryPath od f.name).comps.take k⟩ with
              ⟨-, hd⟩ | hsame
            · exact hd
            · rw [hsame]
              exact hpl k hk
          · rw [if_neg hfd] at hpl ⊢
            rcases nodeAt_after_mkdir Q1e Q2 (entryPath od f.name) with ⟨hle, -⟩ | hsame
            · exfalso
              rw [pathLE_entryPath_entryPath] at hle
              have hb := hblock f hfF (by simpa using hfd)
              rw [hb] at hle
              exact absurd hle (by simp)
            · rw [hsame]
              exact hpl
        · have hfe2 : f = e := by simpa using hfe
          subst hfe2
          rw [PlacedAt, if_pos hdir]
          intro k hk
          exact Q1e k hk
      obtain ⟨fs', evs', hrec, R1, R2, R3⟩ :=
        ih (F ++ [e]) fs1 hArest hBrest
          (by
            intro x hx f hf
            rcases List.mem_append.1 hf with hfF | hfe
            · exact hC x (by simp [hx]) f hfF
            · have : f = e := by simpa using hfe
              subst this
              exact entCompat_symm (hErest x hx))
          hH1mid hH2mid hH3mid
      refine ⟨fs', FsEvent.mkdir (entryPath od e.name) :: evs', ?_, ?_, ?_, R3⟩
      · rw [extractEntries, hxe]
        dsimp only
        rw [hrec]
        rfl
      · intro f hf
        refine R1 f ?_
        rcases List.mem_append.1 hf with h | h
        · exact List.mem_append.2 (Or.inl (List.mem_append.2 (Or.inl h)))
        · rcases List.mem_cons.1 h with rfl | h2
          · exact List.mem_append.2 (Or.inl (by simp))
          · exact List.mem_append.2 (Or.inr h2)
      · intro p hp
        refine UnderInv_mono _ (R2 p hp) ?_
        intro f hf
        rcases List.mem_append.1 hf with h | h
        · rcases List.mem_append.1 h with h2 | h2
          · exact List.mem_append.2 (Or.inl h2)
          · have : f = e := by simpa using h2
            subst this
            exact List.mem_append.2 (Or.inr (by simp))
        · exact List.mem_append.2 (Or.inr (by simp [h]))
    · -- file entry: create missing ancestors, then write the file
      have hdirf : isDirName e.name = false := by simpa using hdir
      have hblock : ∀ f ∈ F, isDirName f.name = false →
          isPfxOf (comps f.name) ((comps e.name).dropLast) = false := by
        intro f hf hfile
        cases hp : isPfxOf (comps f.name) ((comps e.name).dropLast)
        · rfl
        · exfalso
          have h2 := isPfxOf_trans hp (isPfxOf_dropLast (comps e.name))
          have h3 := entCompat_file_right hfile (hCe f hf)
          rw [h3] at h2
          exact absurd h2 (by simp)
      have hpr : parentOf (entryPath od e.name) =
          ⟨od.abs, od.comps ++ (comps e.name).dropLast⟩ := parent_entryPath od e.name hcne
      -- the ancestors step: either the parent exists (and is then a directory),
      -- or create_dir_all runs; in both cases we get fs1 with a directory parent
      have hstep : ∃ fs1,
          (if pathExists fs (parentOf (entryPath od e.name)) then Except.ok fs
            else mkdirAll fs (parentOf (entryPath od e.name))) = .ok fs1 ∧
          nodeAt fs1 (parentOf (entryPath od e.name)) = some .dir ∧
          (∀ q : PathC,
            (pathLE q ⟨od.abs, od.comps ++ (comps e.name).dropLast⟩ = true ∧
              nodeAt fs1 q = some .dir) ∨ nodeAt fs1 q = nodeAt fs q) := by
        by_cases hex : pathExists fs (parentOf (entryPath od e.name)) = true
        · refine ⟨fs, by rw [if_pos hex], ?_, fun q => Or.inr rfl⟩
          have hok := nodeOk_at_under fs od F ((comps e.name).dropLast) hH1 hH2 hblock
          rw [← hpr] at hok
          rcases hok with hnone | hdn
          · rw [pathExists, hnone] at hex
            simp at hex
          · exact hdn
        · have hchain := chainOk fs od F ((comps e.name).dropLast) hH1 hH2 hblock
          obtain ⟨fs1, hmk, Q1, Q2⟩ := mkdirAll_spec fs
            ⟨od.abs, od.comps ++ (comps e.name).dropLast⟩ (by
              intro k h1 h2
              exact hchain k h1 h2)
          refine ⟨fs1, by rw [if_neg hex, hpr]; exact hmk, ?_, ?_⟩
          · rw [hpr]
            have := Q1 (od.comps ++ (comps e.name).dropLast).length (Nat.le_refl _)
            rw [List.take_length] at this
            exact this
          · intro q
            exact nodeAt_after_mkdir Q1 Q2 q
      obtain ⟨fs1, hif, hpardir, hQ⟩ := hstep
      -- the target is absent in fs1, so the write succeeds
      have htgt1 : nodeAt fs1 (entryPath od e.name) = none := by
        rcases hQ (entryPath od e.name) with ⟨hle, -⟩ | hsame
        · exfalso
          have hlenlt : (od.comps ++ (comps e.name).dropLast).length <
              (entryPath od e.name).comps.length := by
            rw [epath_len, List.length_append, List.length_dropLast]
            have : 0 < (comps e.name).length := List.length_pos.2 hcne
            omega
          have hfalse : pathLE (entryPath od e.name)
              ⟨od.abs, od.comps ++ (comps e.name).dropLast⟩ = false := by
            refine pathLE_false_of_pfx_false ?_
            exact isPfxOf_false_of_longer hlenlt
          rw [hfalse] at hle
          exact absurd hle (by simp)
        · rw [hsame]
          exact target_none fs od F e hdirf hcne hCe hH2
      have hcf : createFile fs1 (entryPath od e.name) e.content =
          .ok (fs1.set (entryPath od e.name) (.file e.content)) := by
        refine createFile_spec fs1 _ _ ?_ (by rw [hpr] at hpardir ⊢; exact hpardir) ?_
        · rw [entryPath_comps]
          intro hcon
          rcases List.append_eq_nil.1 hcon with ⟨-, h2⟩
          exact hcne h2
        · exact Or.inl htgt1
      set fs2 := fs1.set (entryPath od e.name) (.file e.content) with hfs2
      have hxe : extractEntry fs od e =
          (Except.ok fs2, [FsEvent.writeF (entryPath od e.name)]) := by
        rw [extractEntry]
        dsimp only
        rw [joinEntry_rel od e.name hss]
        rw [if_neg (show ¬(isDirName e.name = true) by simp [hdirf])]
        rw [hif]
        dsimp only
        rw [hcf]
      -- invariants for the recursive call on fs2 with F ++ [e]
      have hsetne : ∀ q : PathC, q ≠ entryPath od e.name → nodeAt fs2 q = nodeAt fs1 q := by
        intro q hq
        exact nodeAt_set_ne fs1 _ _ q hq
      have hepne : ∀ (q : PathC), q.comps.length ≠ (entryPath od e.name).comps.length →
          q ≠ entryPath od e.name := by
        intro q hq hcon
        exact hq (by rw [hcon])
      have hH1mid : ∀ k, k ≤ od.comps.length →
          nodeOk (nodeAt fs2 ⟨od.abs, od.comps.take k⟩) := by
        intro k hk
        rw [hsetne _ (hepne _ (by
          rw [epath_len, List.length_take]
          have : 0 < (comps e.name).length := List.length_pos.2 hcne
          omega))]
        rcases hQ ⟨od.abs, od.comps.take k⟩ with ⟨-, hd⟩ | hsame
        · exact Or.inr hd
        · rw [hsame]
          exact hH1 k hk
      have hprle : pathLE ⟨od.abs, od.comps ++ (comps e.name).dropLast⟩
          (entryPath od e.name) = true := by
        refine (pathLE_iff _ _).2 ⟨rfl, ?_⟩
        rw [entryPath_comps, isPfxOf_cancel]
        exact isPfxOf_dropLast _
      have hH2mid : ∀ p, pathLT od p = true → UnderInv fs2 od (F ++ [e]) p := by
        intro p hp
        by_cases hpe : p = entryPath od e.name
        · subst hpe
          refine Or.inr (Or.inr ⟨e, by simp, hdirf, rfl, ?_⟩)
          exact nodeAt_set_self fs1 _ _ (by
            rw [entryPath_comps]
            intro hcon
            rcases List.append_eq_nil.1 hcon with ⟨-, h2⟩
            exact hcne h2)
        · rw [UnderInv, hsetne p hpe]
          rcases hQ p with ⟨hle, hd⟩ | hsame
          · refine Or.inr (Or.inl ⟨hd, e, by simp, pathLE_trans hle hprle, Or.inr hpe⟩)
          · rw [hsame]
            exact UnderInv_mono (F ++ [e]) (hH2 p hp) (fun f hf => by simp [hf])
      have hH3mid : ∀ f ∈ F ++ [e], PlacedAt fs2 od f := by
        intro f hf
        rcases List.mem_append.1 hf with hfF | hfe
        · have hpl := hH3 f hfF
          rw [PlacedAt] at hpl ⊢
          by_cases hfd : isDirName f.name = true
          · rw [if_pos hfd] at hpl ⊢
            intro k hk
            have hkne : (⟨(entryPath od f.name).abs,
                (entryPath od f.name).comps.take k⟩ : PathC) ≠ entryPath od e.name := by
              intro hcon
              -- then comps e.name would be a strict prefix路 of comps f.name or equal,
              -- contradicting the file entry's compatibility
              have hcomps := congrArg PathC.comps hcon
              simp only [entryPath_comps] at hcomps
              have hpfx2 : isPfxOf (comps e.name) (comps f.name) = true := by
                have htk : isPfxOf ((od.comps ++ comps f.name).take k)
                    (od.comps ++ comps f.name) = true := isPfxOf_take _ _
                rw [hcomps] at htk
                rw [← isPfxOf_cancel od.comps]
                exact htk
              have hc := entCompat_file_left hdirf (hCe f hfF)
              rw [hc] at hpfx2
              exact absurd hpfx2 (by simp)
            rw [hsetne _ hkne]
            rcases hQ ⟨(entryPath od f.name).abs,
              (entryPath od f.name).comps.take k⟩ with ⟨-, hd⟩ | hsame
            · exact hd
            · rw [hsame]
              exact hpl k hk
          · rw [if_neg hfd] at hpl ⊢
            have hfne : entryPath od f.name ≠ entryPath od e.name := by
              intro hcon
              have hcomps := congrArg PathC.comps hcon
              simp only [entryPath_comps] at hcomps
              have heq := List.append_cancel_left hcomps
              have hc := entCompat_file_left hdirf (hCe f hfF)
              rw [← heq, isPfxOf_refl] at hc
              exact absurd hc (by simp)
            rw [hsetne _ hfne]
            rcases hQ (entryPath od f.name) with ⟨hle, -⟩ | hsame
            · exfalso
              rw [pathLE_iff] at hle
              obtain ⟨-, hpfx⟩ := hle
              simp only [entryPath_comps] at hpfx
              rw [isPfxOf_cancel] at hpfx
              have h2 := isPfxOf_trans hpfx (isPfxOf_dropLast (comps e.name))
              have h3 := entCompat_file_right (by simpa using hfd) (hCe f hfF)
              rw [h3] at h2
              exact absurd h2 (by simp)
            · rw [hsame]
              exact hpl
        · have hfe2 : f = e := by simpa using hfe
          subst hfe2
          rw [PlacedAt, if_neg (by rw [hdirf]; simp)]
          exact nodeAt_set_self fs1 _ _ (by
            rw [entryPath_comps]
            intro hcon
            rcases List.append_eq_nil.1 hcon with ⟨-, h2⟩
            exact hcne h2)
      obtain ⟨fs', evs', hrec, R1, R2, R3⟩ :=
        ih (F ++ [e]) fs2 hArest hBrest
          (by
            intro x hx f hf
            rcases List.mem_append.1 hf with hfF | hfe
            · exact hC x (by simp [hx]) f hfF
            · have : f = e := by simpa using hfe
              subst this
              exact entCompat_symm (hErest x hx))
          hH1mid hH2mid hH3mid
      refine ⟨fs', FsEvent.writeF (entryPath od e.name) :: evs', ?_, ?_, ?_, R3⟩
      · rw [extractEntries, hxe]
        dsimp only
        rw [hrec]
        rfl
      · intro f hf
        refine R1 f ?_
        rcases List.mem_append.1 hf with h | h
        · exact List.mem_append.2 (Or.inl (List.mem_append.2 (Or.inl h)))
        · rcases List.mem_cons.1 h with rfl | h2
          · exact List.mem_append.2 (Or.inl (by simp))
          · exact List.mem_append.2 (Or.inr h2)
      · intro p hp
        refine UnderInv_mono _ (R2 p hp) ?_
        intro f hf
        rcases List.mem_append.1 hf with h | h
        · rcases List.mem_append.1 h with h2 | h2
          · exact List.mem_append.2 (Or.inl h2)
          · have : f = e := by simpa using h2
            subst this
            exact List.mem_append.2 (Or.inr (by simp))
        · exact List.mem_append.2 (Or.inr (by simp [h]))

/-! Round trips of the modelled crypto primitives, and the shape of a
successful compression run (used to settle the round-trip claim). -/

theorem maskByte_lt (key nonce : Bytes) (i : Nat) : maskByte key nonce i < 256 := by
  rw [maskByte]
  omega

theorem unmix_mix (key nonce : Bytes) (i b : Nat) (h : b < 256) :
    unmixByte key nonce i (mixByte key nonce i b) = b := by
  rw [unmixByte, mixByte]
  have hm := maskByte_lt key nonce i
  omega

theorem mapEnum_unmix_mix (key nonce : Bytes) : ∀ (s : Nat) (l : Bytes),
    (∀ b ∈ l, b < 256) →
    mapEnum (unmixByte key nonce) s (mapEnum (mixByte key nonce) s l) = l := by
  intro s l
  induction l generalizing s with
  | nil => intro _; rfl
  | cons b rest ih =>
    intro hb
    rw [mapEnum, mapEnum, unmix_mix key nonce s b (hb b (by simp))]
    rw [ih (s + 1) (fun x hx => hb x (by simp [hx]))]

theorem aead_roundtrip (key nonce pt : Bytes) (h : bytesOk pt = true) :
    aeadDecrypt key nonce (aeadEncrypt key nonce pt) = some pt := by
  rw [aeadEncrypt, aeadDecrypt]
  have hbl : (mapEnum (mixByte key nonce) 0 pt).length = pt.length := length_mapEnum _ _ _
  have htl : (mapEnum (mixByte key nonce) 0 (mapEnum (mixByte key nonce) 0 pt)).length
      = pt.length := by rw [length_mapEnum, hbl]
  have hlen : (mapEnum (mixByte key nonce) 0 pt ++
      mapEnum (mixByte key nonce) 0 (mapEnum (mixByte key nonce) 0 pt)).length
      = 2 * pt.length := by
    rw [List.length_append, hbl, htl]
    omega
  rw [if_pos (by rw [hlen]; omega)]
  have hn : (mapEnum (mixByte key nonce) 0 pt ++
      mapEnum (mixByte key nonce) 0 (mapEnum (mixByte key nonce) 0 pt)).length / 2
      = (mapEnum (mixByte key nonce) 0 pt).length := by
    rw [hlen, hbl]
    omega
  rw [hn]
  dsimp only
  rw [take_len_append, drop_len_append, if_pos rfl]
  rw [mapEnum_unmix_mix key nonce 0 pt (by simpa [bytesOk, List.all_eq_true] using h)]

theorem rsa_roundtrip (kid : Nat) (msg : Bytes) :
    rsa_decrypt kid (rsa_encrypt kid msg) = some msg := by
  rw [rsa_encrypt, rsa_decrypt]
  simp

theorem fileContent_congr {fs1 fs2 : FS} {p : PathC} (h : nodeAt fs1 p = nodeAt fs2 p) :
    fileContent fs1 p = fileContent fs2 p := by
  rw [fileContent, fileContent, h]

/-- A successful `encrypt_file_with_public_key` leaves exactly the container
bytes at the output path and touches no other path. -/
theorem encrypt_success_shape (fs : FS) (aes_key nonce zip_data : Bytes) (pubP outP : PathC)
    (kid : Nat) (fs1 : FS) (evs : List FsEvent)
    (hpub : fileContent fs pubP = some [1, kid])
    (hok : encrypt_file_with_public_key fs aes_key nonce zip_data pubP outP = (.ok fs1, evs)) :
    fileContent fs1 outP = some (container_bytes nonce (rsa_encrypt kid aes_key)
        (aeadEncrypt aes_key nonce zip_data)) ∧
    ∀ q, q ≠ outP → nodeAt fs1 q = nodeAt fs q := by
  have hparse : parse_public_key_pem [1, kid] = some kid := rfl
  simp only [encrypt_file_with_public_key, hpub, hparse] at hok
  rcases hcf : createFile fs outP [] with e | fsa
  · rw [hcf] at hok
    exact absurd hok (by simp)
  · rw [hcf] at hok
    dsimp only at hok
    obtain ⟨hne, hfsa⟩ := createFile_ok fs outP [] fsa hcf
    subst hfsa
    rw [appendFile_set fs outP [] nonce hne] at hok
    dsimp only at hok
    rw [appendFile_set (fs.set outP (.file [])) outP ([] ++ nonce) _ hne] at hok
    dsimp only at hok
    rw [appendFile_set ((fs.set outP (.file [])).set outP (.file ([] ++ nonce))) outP
      (([] ++ nonce) ++ be16 (as_u16 (rsa_encrypt kid aes_key).length)) _ hne] at hok
    dsimp only at hok
    rw [appendFile_set _ outP
      ((([] ++ nonce) ++ be16 (as_u16 (rsa_encrypt kid aes_key).length)) ++
        rsa_encrypt kid aes_key) _ hne] at hok
    dsimp only at hok
    simp only [Prod.mk.injEq, Except.ok.injEq] at hok
    rw [← hok.1]
    constructor
    · rw [fileContent]
      rw [nodeAt_set_self _ outP _ hne]
      rw [container_bytes]
      simp [List.append_assoc]
    · intro q hq
      rw [nodeAt_set_ne _ outP _ q hq, nodeAt_set_ne _ outP _ q hq,
        nodeAt_set_ne _ outP _ q hq, nodeAt_set_ne _ outP _ q hq,
        nodeAt_set_ne _ outP _ q hq]

/-- A successful `compress_files` run passed the extension gate, wrote
exactly the container bytes for the built entries to the output path, and
changed no other path. -/
theorem compress_result (fs : FS) (aes_key nonce : Bytes) (outP pubP : PathC)
    (targets : List PathC) (entries : List ZEntry) (evs0 : List FsEvent)
    (kid : Nat) (fs1 : FS) (evs1 : List FsEvent)
    (hpub : fileContent fs pubP = some [1, kid])
    (hents : build_zip_entries fs targets = (.ok entries, evs0))
    (hok : compress_files fs aes_key nonce outP pubP targets = (.ok (), fs1, evs1)) :
    validate_extension outP = true ∧
    fileContent fs1 outP = some (container_bytes nonce (rsa_encrypt kid aes_key)
        (aeadEncrypt aes_key nonce (serializeZip entries))) ∧
    ∀ q, q ≠ outP → nodeAt fs1 q = nodeAt fs q := by
  rw [compress_files] at hok
  by_cases hval : validate_extension outP = false
  · rw [if_pos hval] at hok
    exact absurd (congrArg (fun t => t.1) hok) (by simp)
  · rw [if_neg hval] at hok
    refine ⟨by simpa using hval, ?_⟩
    rcases hcount : count_files_in_paths fs targets with e | n
    · rw [hcount] at hok
      exact absurd (congrArg (fun t => t.1) hok) (by simp)
    · rw [hcount] at hok
      dsimp only at hok
      rw [hents] at hok
      dsimp only at hok
      rcases henc : encrypt_file_with_public_key fs aes_key nonce (serializeZip entries)
          pubP outP with ⟨r, evs2⟩
      rw [henc] at hok
      cases r with
      | error e =>
        exact absurd (congrArg (fun t => t.1) hok) (by simp)
      | ok fs1x =>
        dsimp only at hok
        by_cases hex : pathExists fs1x outP = true
        · rw [if_pos hex] at hok
          simp only [Prod.mk.injEq] at hok
          obtain ⟨-, hfs, -⟩ := hok
          subst hfs
          exact (encrypt_success_shape fs aes_key nonce (serializeZip entries) pubP outP
            kid fs1x evs2 hpub henc)
        · rw [if_neg hex] at hok
          exact absurd (congrArg (fun t => t.1) hok) (by simp)

/-- Decrypting the exact container a successful seal wrote, with the
matching private key, returns the archive plaintext (two file reads, no
writes). -/
theorem decrypt_container (fs1 : FS) (outP privP : PathC) (kid : Nat)
    (aes_key nonce pt : Bytes)
    (hct : fileContent fs1 outP = some (container_bytes nonce (rsa_encrypt kid aes_key)
        (aeadEncrypt aes_key nonce pt)))
    (hpriv : fileContent fs1 privP = some [2, kid])
    (hnl : nonce.length = 12) (hkl : aes_key.length = 32)
    (hpt : bytesOk pt = true) :
    decrypt_zip_with_rsa fs1 outP privP =
      (.ok pt, [FsEvent.readF outP, FsEvent.readF privP]) := by
  have hwl : (rsa_encrypt kid aes_key).length = 33 := by simp [rsa_encrypt, hkl]
  have hbe : be16 (as_u16 (rsa_encrypt kid aes_key).length) = [0, 33] := by
    rw [hwl]
    rfl
  have hshape : container_bytes nonce (rsa_encrypt kid aes_key) (aeadEncrypt aes_key nonce pt)
      = nonce ++ ([0, 33] ++ (rsa_encrypt kid aes_key ++ aeadEncrypt aes_key nonce pt)) := by
    rw [container_bytes, hbe]
    simp [List.append_assoc]
  have hdlen : (container_bytes nonce (rsa_encrypt kid aes_key)
      (aeadEncrypt aes_key nonce pt)).length
      = 47 + (aeadEncrypt aes_key nonce pt).length := by
    rw [hshape]
    simp only [List.length_append, List.length_cons, List.length_nil, hnl, hwl]
    omega
  have htake : (container_bytes nonce (rsa_encrypt kid aes_key)
      (aeadEncrypt aes_key nonce pt)).take 12 = nonce := by
    have h := take_len_append nonce
      ([0, 33] ++ (rsa_encrypt kid aes_key ++ aeadEncrypt aes_key nonce pt))
    rw [hnl] at h
    rw [hshape, h]
  have hnonce_ok : extract_nonce (container_bytes nonce (rsa_encrypt kid aes_key)
      (aeadEncrypt aes_key nonce pt)) = .ok nonce := by
    rw [extract_nonce, if_pos (by rw [hdlen]; omega), htake]
  have h12 : nthByte (container_bytes nonce (rsa_encrypt kid aes_key)
      (aeadEncrypt aes_key nonce pt)) 12 = 0 := by
    rw [hshape]
    have h := nthByte_append_right nonce
      ([0, 33] ++ (rsa_encrypt kid aes_key ++ aeadEncrypt aes_key nonce pt)) 0
    rw [hnl, Nat.add_zero] at h
    rw [h]
    rfl
  have h13 : nthByte (container_bytes nonce (rsa_encrypt kid aes_key)
      (aeadEncrypt aes_key nonce pt)) 13 = 33 := by
    rw [hshape]
    have h := nthByte_append_right nonce
      ([0, 33] ++ (rsa_encrypt kid aes_key ++ aeadEncrypt aes_key nonce pt)) 1
    rw [hnl] at h
    have h2 : (12 : Nat) + 1 = 13 := rfl
    rw [h2] at h
    rw [h]
    rfl
  have hks : de16 0 33 = 33 := rfl
  have hshape2 : container_bytes nonce (rsa_encrypt kid aes_key)
      (aeadEncrypt aes_key nonce pt)
      = (nonce ++ [0, 33]) ++ (rsa_encrypt kid aes_key ++ aeadEncrypt aes_key nonce pt) := by
    rw [hshape]
    simp [List.append_assoc]
  have hkeyslice : ((container_bytes nonce (rsa_encrypt kid aes_key)
      (aeadEncrypt aes_key nonce pt)).drop 14).take 33 = rsa_encrypt kid aes_key := by
    have hl14 : (nonce ++ [0, 33]).length = 14 := by
      simp [hnl]
    have hd := drop_len_append (nonce ++ [0, 33])
      (rsa_encrypt kid aes_key ++ aeadEncrypt aes_key nonce pt)
    rw [hl14] at hd
    rw [hshape2, hd, ← hwl, take_len_append]
  have hzipslice : (container_bytes nonce (rsa_encrypt kid aes_key)
      (aeadEncrypt aes_key nonce pt)).drop 47 = aeadEncrypt aes_key nonce pt := by
    have hshape3 : container_bytes nonce (rsa_encrypt kid aes_key)
        (aeadEncrypt aes_key nonce pt)
        = ((nonce ++ [0, 33]) ++ rsa_encrypt kid aes_key) ++ aeadEncrypt aes_key nonce pt := by
      rw [hshape]
      simp [List.append_assoc]
    have hl47 : ((nonce ++ [0, 33]) ++ rsa_encrypt kid aes_key).length = 47 := by
      simp [List.length_append, hnl, hwl]
    have hd := drop_len_append ((nonce ++ [0, 33]) ++ rsa_encrypt kid aes_key)
      (aeadEncrypt aes_key nonce pt)
    rw [hl47] at hd
    rw [hshape3, hd]
  have hpparse : parse_private_key_pem [2, kid] = some kid := rfl
  simp only [decrypt_zip_with_rsa]
  rw [hct]
  dsimp only
  rw [hpriv]
  dsimp only
  rw [hpparse]
  dsimp only
  rw [hnonce_ok]
  dsimp only
  rw [if_neg (by rw [hdlen]; omega)]
  rw [h12, h13, hks]
  rw [if_neg (by rw [hdlen]; omega)]
  rw [hkeyslice, rsa_roundtrip]
  dsimp only
  rw [if_neg (by rw [hkl]; omega)]
  have h47 : (14 : Nat) + 33 = 47 := rfl
  rw [h47, hzipslice, aead_roundtrip aes_key nonce pt hpt]

/-! What the build side of `compress_files` produces: every packed entry
has a relative, separator-terminated-free, ASCII name and byte-valid
content (on a well-formed filesystem). -/

theorem mem_entries_of_nodeAt {fs : FS} {p : PathC} {n : FsNode}
    (hne : p.comps ≠ []) (h : nodeAt fs p = some n) : (p, n) ∈ fs.entries := by
  rw [nodeAt, if_neg hne] at h
  rcases hfind : fs.entries.find? (fun e => e.1 == p) with _ | e
  · rw [hfind] at h
    simp at h
  · rw [hfind] at h
    have hmem := List.mem_of_find?_eq_some hfind
    have hbeq := List.find?_some hfind
    have he1 : e.1 = p := by simpa using hbeq
    have he2 : e.2 = n := by simpa using h
    have he : e = (p, n) := by
      rcases e with ⟨a, b⟩
      simp only at he1 he2
      rw [he1, he2]
    rwa [he] at hmem

theorem wfb_entry_facts {fs : FS} (hwf : fs.wfb = true) {p : PathC} {n : FsNode}
    (hmem : (p, n) ∈ fs.entries) :
    goodPath p = true ∧ p.comps ≠ [] ∧ ∀ c, n = FsNode.file c → bytesOk c = true := by
  rw [FS.wfb] at hwf
  simp only [Bool.and_eq_true, List.all_eq_true] at hwf
  have h1 := hwf.1.1 (p, n) hmem
  simp only [Bool.and_eq_true] at h1
  refine ⟨h1.1.1, by simpa using h1.1.2, ?_⟩
  intro c hc
  subst hc
  simpa [bytesOk] using h1.2

theorem filesUnder_mem {fs : FS} {t q : PathC} {c : Bytes}
    (h : (q, c) ∈ filesUnder fs t) :
    (q, FsNode.file c) ∈ fs.entries ∧ pathLE t q = true := by
  rw [filesUnder] at h
  rcases List.mem_filterMap.1 h with ⟨⟨p, n⟩, hmem, he⟩
  cases n with
  | file c2 =>
    dsimp only at he
    by_cases hle : pathLE t p = true
    · rw [if_pos hle] at he
      simp only [Option.some.injEq, Prod.mk.injEq] at he
      obtain ⟨h1, h2⟩ := he
      subst h1
      subst h2
      exact ⟨hmem, hle⟩
    · rw [if_neg hle] at he
      simp at he
  | dir => simp at he
  | special => simp at he

theorem mem_joinSlash : ∀ (gs : List (List Char)) (c : Char), c ∈ joinSlash gs →
    (∃ g ∈ gs, c ∈ g) ∨ c = '/' := by
  intro gs
  induction gs with
  | nil =>
    intro c hc
    simp [joinSlash] at hc
  | cons g rest ih =>
    intro c hc
    cases rest with
    | nil =>
      have hj : joinSlash [g] = g := rfl
      rw [hj] at hc
      exact Or.inl ⟨g, by simp, hc⟩
    | cons g2 rest2 =>
      have hj : joinSlash (g :: g2 :: rest2) = g ++ '/' :: joinSlash (g2 :: rest2) := rfl
      rw [hj] at hc
      rcases List.mem_append.1 hc with h1 | h1
      · exact Or.inl ⟨g, by simp, h1⟩
      · rcases List.mem_cons.1 h1 with rfl | h2
        · exact Or.inr rfl
        · rcases ih c h2 with ⟨g3, hg3, hcg⟩ | h3
          · exact Or.inl ⟨g3, by simp [hg3], hcg⟩
          · exact Or.inr h3

theorem strBytes_ok_of_good (parts : List String)
    (hp : ∀ c ∈ parts, goodComp c = true) :
    bytesOk (strBytes (nameOfParts parts)) = true := by
  simp only [bytesOk, List.all_eq_true, decide_eq_true_eq]
  intro b hb
  rw [strBytes] at hb
  rcases List.mem_map.1 hb with ⟨ch, hch, rfl⟩
  rw [nameOfParts, toList_mk] at hch
  rcases mem_joinSlash _ ch hch with ⟨g, hg, hcg⟩ | hsl
  · rcases List.mem_map.1 hg with ⟨cstr, hcs, rfl⟩
    exact ((goodComp_unpack cstr (hp cstr hcs)).2 ch hcg).2
  · rw [hsl]
    decide

theorem mem_of_getLast_opt : ∀ (l : List String) (a : String),
    l.getLast? = some a → a ∈ l := by
  intro l
  induction l with
  | nil =>
    intro a h
    simp at h
  | cons x rest ih =>
    intro a h
    cases hr : rest with
    | nil =>
      rw [hr] at h
      simp only [List.getLast?_singleton, Option.some.injEq] at h
      rw [h]
      simp
    | cons y ys =>
      rw [hr] at h
      rw [List.getLast?_cons_cons] at h
      have hmem := ih a (by rw [hr]; exact h)
      rw [hr] at hmem
      rcases List.mem_cons.1 hmem with rfl | hmem2
      · simp
      · simp [hmem2]

theorem buildTarget_names {fs : FS} (hwf : fs.wfb = true) {t : PathC}
    {es : List ZEntry} {evs : List FsEvent}
    (h : buildTarget fs t = .ok (es, evs)) :
    ∀ e ∈ es, relName e.name = true ∧ isDirName e.name = false ∧
      bytesOk (strBytes e.name) = true ∧ bytesOk e.content = true := by
  rw [buildTarget] at h
  rcases hat : nodeAt fs t with _ | n
  · rw [hat] at h
    exact absurd h (by simp)
  · rw [hat] at h
    cases n with
    | special => exact absurd h (by simp)
    | file c =>
      rcases hlast : t.comps.getLast? with _ | base
      · rw [hlast] at h
        exact absurd h (by simp)
      · rw [hlast] at h
        dsimp only at h
        simp only [Except.ok.injEq, Prod.mk.injEq] at h
        obtain ⟨hes, -⟩ := h
        intro e he
        rw [← hes] at he
        have hee : e = ⟨base, c⟩ := by simpa using he
        subst hee
        have hne : t.comps ≠ [] := by
          intro hcon
          rw [hcon] at hlast
          simp at hlast
        have hmem := mem_entries_of_nodeAt hne hat
        obtain ⟨hgp, -, hbytes⟩ := wfb_entry_facts hwf hmem
        have hbase : goodComp base = true := by
          have hbm : base ∈ t.comps := mem_of_getLast_opt _ _ hlast
          rw [goodPath] at hgp
          exact List.all_eq_true.1 hgp base hbm
        have hpl : ∀ x ∈ [base], goodComp x = true := by
          intro x hx
          rw [List.mem_singleton] at hx
          rw [hx]
          exact hbase
        refine ⟨?_, ?_, ?_, hbytes c rfl⟩
        · rw [← nameOfParts_single base]
          exact relName_nameOfParts [base] (by simp) hpl
        · rw [← nameOfParts_single base]
          exact isDirName_nameOfParts [base] (by simp) hpl
        · rw [← nameOfParts_single base]
          exact strBytes_ok_of_good [base] hpl
    | dir =>
      rcases hlast : t.comps.getLast? with _ | base
      · rw [hlast] at h
        exact absurd h (by simp)
      · rw [hlast] at h
        dsimp only at h
        simp only [Except.ok.injEq, Prod.mk.injEq] at h
        obtain ⟨hes, -⟩ := h
        intro e he
        rw [← hes] at he
        rcases List.mem_map.1 he with ⟨⟨q, c⟩, hq, rfl⟩
        obtain ⟨hqmem, hqle⟩ := filesUnder_mem hq
        obtain ⟨hgq, hqne, hqbytes⟩ := wfb_entry_facts hwf hqmem
        have hne : t.comps ≠ [] := by
          intro hcon
          rw [hcon] at hlast
          simp at hlast
        have hmem := mem_entries_of_nodeAt hne hat
        obtain ⟨hgt, -, -⟩ := wfb_entry_facts hwf hmem
        have hbase : goodComp base = true := by
          have hbm : base ∈ t.comps := mem_of_getLast_opt _ _ hlast
          rw [goodPath] at hgt
          exact List.all_eq_true.1 hgt base hbm
        have hparts : ∀ x ∈ base :: q.comps.drop t.comps.length, goodComp x = true := by
          intro x hx
          rcases List.mem_cons.1 hx with rfl | hx2
          · exact hbase
          · have hxq : x ∈ q.comps := List.mem_of_mem_drop hx2
            rw [goodPath] at hgq
            exact List.all_eq_true.1 hgq x hxq
        dsimp only
        rw [dirEntryName]
        exact ⟨relName_nameOfParts _ (by simp) hparts,
          isDirName_nameOfParts _ (by simp) hparts,
          strBytes_ok_of_good _ hparts, hqbytes c rfl⟩

theorem build_zip_entries_names {fs : FS} (hwf : fs.wfb = true) :
    ∀ (targets : List PathC) (entries : List ZEntry) (evs : List FsEvent),
    build_zip_entries fs targets = (.ok entries, evs) →
    ∀ e ∈ entries, relName e.name = true ∧ isDirName e.name = false ∧
      bytesOk (strBytes e.name) = true ∧ bytesOk e.content = true := by
  intro targets
  induction targets with
  | nil =>
    intro entries evs h e he
    simp only [build_zip_entries, Prod.mk.injEq, Except.ok.injEq] at h
    rw [← h.1] at he
    simp at he
  | cons t rest ih =>
    intro entries evs h e he
    rw [build_zip_entries] at h
    rcases hbt : buildTarget fs t with err | p1
    · rw [hbt] at h
      simp at h
    · rcases p1 with ⟨es1, evs1⟩
      rw [hbt] at h
      dsimp only at h
      rcases hrest : build_zip_entries fs rest with ⟨r2, evs2⟩
      rw [hrest] at h
      cases r2 with
      | error e2 =>
        dsimp only at h
        simp at h
      | ok es2 =>
        dsimp only at h
        simp only [Prod.mk.injEq, Except.ok.injEq] at h
        obtain ⟨hes, -⟩ := h
        rw [← hes] at he
        rcases List.mem_append.1 he with h1 | h2
        · exact buildTarget_names hwf hbt e h1
        · exact ih es2 evs2 hrest e h2

theorem all_of_forall_lt (l : Bytes) (h : ∀ b ∈ l, b < 256) : bytesOk l = true := by
  simp only [bytesOk, List.all_eq_true, decide_eq_true_eq]
  exact h

theorem serializeZip_ok (entries : List ZEntry)
    (h : ∀ e ∈ entries, bytesOk (strBytes e.name) = true ∧ bytesOk e.content = true) :
    bytesOk (serializeZip entries) = true := by
  induction entries with
  | nil => rfl
  | cons e rest ih =>
    obtain ⟨hn, hc⟩ := h e (by simp)
    have hr := ih (fun x hx => h x (by simp [hx]))
    rw [serializeZip, serializeEntry]
    simp only [bytesOk, List.all_append, Bool.and_eq_true] at hn hc hr ⊢
    exact ⟨⟨⟨⟨all_of_forall_lt _ (encodeLen_lt _), hn⟩,
      all_of_forall_lt _ (encodeLen_lt _)⟩, hc⟩, hr⟩

/-! Decidable preconditions on the output directory, and monotonicity of
extraction: extraction only ever creates nodes, never removes one. -/

theorem ancestorsOk_spec {fs : FS} {od : PathC} (h : ancestorsOk fs od = true) :
    ∀ k, k ≤ od.comps.length → nodeOk (nodeAt fs ⟨od.abs, od.comps.take k⟩) := by
  intro k hk
  rw [ancestorsOk, List.all_eq_true] at h
  have h2 := h k (by rw [List.mem_range]; omega)
  rcases hn : nodeAt fs ⟨od.abs, od.comps.take k⟩ with _ | n
  · exact Or.inl rfl
  · cases n with
    | dir => exact Or.inr rfl
    | file c =>
      rw [hn] at h2
      simp at h2
    | special =>
      rw [hn] at h2
      simp at h2

theorem underEmpty_spec {fs : FS} {od : PathC} (h : underEmpty fs od = true) :
    ∀ p, pathLT od p = true → nodeAt fs p = none := by
  intro p hp
  have hpc : p.comps ≠ [] := by
    obtain ⟨habs, r, hr, hcomps⟩ := pathLT_decomp hp
    intro hcon
    rw [hcon] at hcomps
    exact hr (List.append_eq_nil.1 hcomps.symm).2
  rw [nodeAt, if_neg hpc]
  rw [underEmpty, List.all_eq_true] at h
  rcases hfind : fs.entries.find? (fun e => e.1 == p) with _ | e
  · rw [hfind]
    rfl
  · exfalso
    have hmem := List.mem_of_find?_eq_some hfind
    have hbeq : e.1 = p := by simpa using List.find?_some hfind
    have h2 := h e hmem
    rw [hbeq, hp] at h2
    simp at h2

theorem set_exists_mono (fs : FS) (p : PathC) (n : FsNode) (q : PathC)
    (h : pathExists fs q = true) : pathExists (fs.set p n) q = true := by
  by_cases hq : q.comps = []
  · rw [pathExists, nodeAt_root _ _ hq]
    rfl
  · by_cases hqp : q = p
    · subst hqp
      rw [pathExists, nodeAt_set_self fs q n hq]
      rfl
    · rw [pathExists, nodeAt_set_ne fs p n q hqp]
      exact h

theorem mkdirList_exists_mono (ab : Bool) (q : PathC) :
    ∀ (rest done : List String) (fs fs2 : FS),
    mkdirList fs ab done rest = .ok fs2 →
    pathExists fs q = true → pathExists fs2 q = true := by
  intro rest
  induction rest with
  | nil =>
    intro done fs fs2 h hq
    simp only [mkdirList, Except.ok.injEq] at h
    rw [← h]
    exact hq
  | cons c rest2 ih =>
    intro done fs fs2 h hq
    rw [mkdirList] at h
    rcases hn : nodeAt fs ⟨ab, done ++ [c]⟩ with _ | n
    · rw [hn] at h
      exact ih _ _ _ h (set_exists_mono fs _ _ q hq)
    · rw [hn] at h
      cases n with
      | dir => exact ih _ _ _ h hq
      | file c2 => simp at h
      | special => simp at h

theorem mkdirAll_exists_mono (fs : FS) (p : PathC) (fs2 : FS)
    (h : mkdirAll fs p = .ok fs2) (q : PathC)
    (hq : pathExists fs q = true) : pathExists fs2 q = true :=
  mkdirList_exists_mono p.abs q p.comps [] fs fs2 h hq

theorem createFile_exists_mono (fs : FS) (p : PathC) (c : Bytes) (fs2 : FS)
    (h : createFile fs p c = .ok fs2) (q : PathC)
    (hq : pathExists fs q = true) : pathExists fs2 q = true := by
  obtain ⟨-, hset⟩ := createFile_ok fs p c fs2 h
  rw [hset]
  exact set_exists_mono fs p _ q hq

theorem extractEntry_exists_mono (fs : FS) (od : PathC) (e : ZEntry) (fs2 : FS)
    (evs : List FsEvent) (h : extractEntry fs od e = (.ok fs2, evs)) (q : PathC)
    (hq : pathExists fs q = true) : pathExists fs2 q = true := by
  rw [extractEntry] at h
  dsimp only at h
  by_cases hdir : isDirName e.name = true
  · rw [if_pos hdir] at h
    simp only [Prod.mk.injEq] at h
    exact mkdirAll_exists_mono fs _ fs2 h.1 q hq
  · rw [if_neg hdir] at h
    rcases hm : (if pathExists fs (parentOf (joinEntry od e.name)) = true
        then Except.ok fs else mkdirAll fs (parentOf (joinEntry od e.name))) with err | fs1
    · rw [hm] at h
      simp at h
    · rw [hm] at h
      dsimp only at h
      have hq1 : pathExists fs1 q = true := by
        by_cases hex : pathExists fs (parentOf (joinEntry od e.name)) = true
        · rw [if_pos hex] at hm
          simp only [Except.ok.injEq] at hm
          rw [← hm]
          exact hq
        · rw [if_neg hex] at hm
          exact mkdirAll_exists_mono fs _ fs1 hm q hq
      rcases hcf : createFile fs1 (joinEntry od e.name) e.content with err2 | fs3
      · rw [hcf] at h
        simp at h
      · rw [hcf] at h
        simp only [Prod.mk.injEq, Except.ok.injEq] at h
        rw [← h.1]
        exact createFile_exists_mono fs1 _ _ fs3 hcf q hq1

theorem extractEntries_exists_mono (od : PathC) (q : PathC) :
    ∀ (entries : List ZEntry) (fs fs2 : FS) (evs : List FsEvent),
    extractEntries fs od entries = (.ok (), fs2, evs) →
    pathExists fs q = true → pathExists fs2 q = true := by
  intro entries
  induction entries with
  | nil =>
    intro fs fs2 evs h hq
    simp only [extractEntries, Prod.mk.injEq] at h
    rw [← h.2.1]
    exact hq
  | cons e rest ih =>
    intro fs fs2 evs h hq
    rw [extractEntries] at h
    rcases hxe : extractEntry fs od e with ⟨r, evs1⟩
    rw [hxe] at h
    cases r with
    | error err =>
      dsimp only at h
      simp at h
    | ok fs1 =>
      dsimp only at h
      rcases hrec : extractEntries fs1 od rest with ⟨r2, fs3, evs2⟩
      rw [hrec] at h
      dsimp only at h
      simp only [Prod.mk.injEq] at h
      obtain ⟨hr2, hfs3, -⟩ := h
      subst hr2
      rw [← hfs3]
      exact ih fs1 fs3 evs2 hrec (extractEntry_exists_mono fs od e fs1 evs1 hxe q hq)

/-- C1 (amended round trip): on a well-formed filesystem, with a matching
PEM key pair, a fresh 256-bit content key and 96-bit nonce, and a target
list whose built archive entries are pairwise compatible (no two targets
pack entries under the same name — the amendment; the unqualified claim
fails when two targets share a base name), compressing the targets and
then extracting the written container into an output directory with a
clean ancestor chain and nothing beneath it succeeds and reproduces every
packed file name with its exact byte content at `outputDir/<entry name>`
(directory structure included: a file found under a directory target is
packed, and lands, under the target base name joined with its relative
path). -/
theorem C1_round_trip (fs : FS) (aes_key nonce : Bytes) (outP pubP privP od : PathC)
    (targets : List PathC) (kid : Nat) (entries : List ZEntry)
    (evs0 evs1 : List FsEvent) (fs1 : FS)
    (hwf : fs.wfb = true)
    (hkl : aes_key.length = 32) (hnl : nonce.length = 12)
    (hpub : fileContent fs pubP = some [1, kid])
    (hpriv : fileContent fs privP = some [2, kid])
    (hents : build_zip_entries fs targets = (.ok entries, evs0))
    (hpw : List.Pairwise (fun e f => entCompat e f = true) entries)
    (hcmp : compress_files fs aes_key nonce outP pubP targets = (.ok (), fs1, evs1))
    (hprivne : privP ≠ outP)
    (hanc : ancestorsOk fs od = true)
    (hodex : nodeAt fs od = some FsNode.dir)
    (hund : underEmpty fs od = true)
    (houtanc : pathLE outP od = false)
    (houtund : pathLT od outP = false) :
    ∃ fs2 evs2, extract_files fs1 outP privP od = (.ok (), fs2, evs2) ∧
      ∀ e ∈ entries, fileContent fs2 (entryPath od e.name) = some e.content := by
  obtain ⟨hval, hcont, hpres⟩ := compress_result fs aes_key nonce outP pubP targets
    entries evs0 kid fs1 evs1 hpub hents hcmp
  have hnames := build_zip_entries_names hwf targets entries evs0 hents
  have hbok : bytesOk (serializeZip entries) = true :=
    serializeZip_ok entries (fun e he => ⟨(hnames e he).2.2.1, (hnames e he).2.2.2⟩)
  have hpriv1 : fileContent fs1 privP = some [2, kid] := by
    rw [fileContent_congr (hpres privP hprivne)]
    exact hpriv
  have hdec := decrypt_container fs1 outP privP kid aes_key nonce (serializeZip entries)
    hcont hpriv1 hnl hkl hbok
  have hodne : od ≠ outP := by
    intro hcon
    rw [← hcon, pathLE_refl] at houtanc
    exact absurd houtanc (by simp)
  have hH1 : ∀ k, k ≤ od.comps.length → nodeOk (nodeAt fs1 ⟨od.abs, od.comps.take k⟩) := by
    intro k hk
    have hqne : (⟨od.abs, od.comps.take k⟩ : PathC) ≠ outP := by
      intro hcon
      have hle : pathLE (⟨od.abs, od.comps.take k⟩ : PathC) od = true := by
        rw [pathLE_iff]
        exact ⟨rfl, isPfxOf_take od.comps k⟩
      rw [hcon, houtanc] at hle
      exact absurd hle (by simp)
    rw [hpres _ hqne]
    exact ancestorsOk_spec hanc k hk
  have hH2 : ∀ p, pathLT od p = true → UnderInv fs1 od [] p := by
    intro p hp
    have hpne : p ≠ outP := by
      intro hcon
      rw [hcon, houtund] at hp
      exact absurd hp (by simp)
    refine Or.inl ?_
    rw [hpres p hpne]
    exact underEmpty_spec hund p hp
  obtain ⟨fs2, evsx, hrun, hplaced, -, -⟩ := extract_master od entries [] fs1
    (fun e he => (hnames e he).1) hpw (by simp) hH1 hH2 (by simp)
  have hex2 : pathExists fs2 od = true := by
    have hex1 : pathExists fs1 od = true := by
      rw [pathExists, hpres od hodne, hodex]
      rfl
    exact extractEntries_exists_mono od od entries fs1 fs2 evsx hrun hex1
  refine ⟨fs2, [FsEvent.readF outP, FsEvent.readF privP] ++ evsx, ?_, ?_⟩
  · rw [extract_files]
    rw [if_neg (by simp [hval])]
    rw [hdec]
    dsimp only
    rw [parseZip_serializeZip]
    dsimp only
    rw [hrun]
    dsimp only
    rw [if_pos hex2]
  · intro e he
    have hpl := hplaced e (by simpa using he)
    rw [PlacedAt, if_neg (by simp [(hnames e he).2.1])] at hpl
    rw [fileContent, hpl]

/-- Fixture: `fxFs` extended with an existing empty `dest` directory (the
round-trip scenario). -/
def fxFsRT : FS := ⟨fxFs.entries ++ [(fxDest, .dir)]⟩

/-- C1 witness: the concrete round trip over one file target and one
directory target reproduces both packed files, byte for byte, under the
output directory. -/
theorem C1_round_trip_witness :
    (fxFsRT.wfb = true ∧
      build_zip_entries fxFsRT [fxNotes, fxDocs] =
        (.ok [⟨"notes.txt", [104, 105]⟩, ⟨"docs/a.txt", [97, 98, 99]⟩],
          (build_zip_entries fxFsRT [fxNotes, fxDocs]).2) ∧
      compress_files fxFsRT fxKey fxNonce fxOut fxPub [fxNotes, fxDocs] =
        (.ok (), (compress_files fxFsRT fxKey fxNonce fxOut fxPub [fxNotes, fxDocs]).2.1,
          (compress_files fxFsRT fxKey fxNonce fxOut fxPub [fxNotes, fxDocs]).2.2)) ∧
    (∃ fs2 evs2,
      extract_files (compress_files fxFsRT fxKey fxNonce fxOut fxPub [fxNotes, fxDocs]).2.1
          fxOut fxPriv fxDest = (.ok (), fs2, evs2) ∧
      ∀ e ∈ [(⟨"notes.txt", [104, 105]⟩ : ZEntry), ⟨"docs/a.txt", [97, 98, 99]⟩],
        fileContent fs2 (entryPath fxDest e.name) = some e.content) :=
  ⟨⟨by decide, by decide, by decide⟩,
    C1_round_trip fxFsRT fxKey fxNonce fxOut fxPub fxPriv fxDest [fxNotes, fxDocs] 5
      [⟨"notes.txt", [104, 105]⟩, ⟨"docs/a.txt", [97, 98, 99]⟩]
      (build_zip_entries fxFsRT [fxNotes, fxDocs]).2
      (compress_files fxFsRT fxKey fxNonce fxOut fxPub [fxNotes, fxDocs]).2.2
      (compress_files fxFsRT fxKey fxNonce fxOut fxPub [fxNotes, fxDocs]).2.1
      (by decide) (by decide) (by decide) (by decide) (by decide) (by decide)
      (by decide) (by decide) (by decide) (by decide) (by decide) (by decide)
      (by decide) (by decide)⟩

/-- C1 counterexample: two file targets sharing the base name `same.txt`
collide in the archive; after the round trip the output directory holds a
single `same.txt` with the second target's bytes, and the first target's
content `[1]` is reproduced nowhere under it — the unqualified round-trip
claim is false. -/
theorem C1_counterexample :
    (compress_files fxFsColl fxKey fxNonce fxOut fxPub [fxCollA, fxCollB]).1 = .ok () ∧
    fileContent fxFsColl fxCollA = some [1] ∧
    (extract_files (compress_files fxFsColl fxKey fxNonce fxOut fxPub
        [fxCollA, fxCollB]).2.1 fxOut fxPriv fxDest).1 = .ok () ∧
    fileContent (extract_files (compress_files fxFsColl fxKey fxNonce fxOut fxPub
        [fxCollA, fxCollB]).2.1 fxOut fxPriv fxDest).2.1 ⟨false, ["dest", "same.txt"]⟩
      = some [2] ∧
    ∀ pr ∈ (extract_files (compress_files fxFsColl fxKey fxNonce fxOut fxPub
        [fxCollA, fxCollB]).2.1 fxOut fxPriv fxDest).2.1.entries,
      pathLT fxDest pr.1 = true → pr.2 ≠ FsNode.file [1] := by
  decide

/-- C8 (amended entry handling): over an output directory with a clean
ancestor chain and nothing beneath it, the extraction loop handles every
parsed entry by name as described, provided the names are relative and
pairwise non-conflicting (the amendment: an absolutely named entry is
joined so that it replaces the output directory entirely and escapes it,
and a later entry may overwrite an earlier one of the same name) — a name
with a trailing separator becomes that directory with all missing
ancestors created and no content written; any other name gets its
ancestors created and its full content written to `outputDir/<entry
name>`. -/
theorem C8_entry_handling (fs : FS) (od : PathC) (entries : List ZEntry)
    (hA : ∀ e ∈ entries, relName e.name = true)
    (hB : List.Pairwise (fun e f => entCompat e f = true) entries)
    (hanc : ancestorsOk fs od = true)
    (hund : underEmpty fs od = true) :
    ∃ fs2 evs, extractEntries fs od entries = (.ok (), fs2, evs) ∧
      ∀ e ∈ entries,
        (isDirName e.name = true →
          ∀ k, k ≤ (entryPath od e.name).comps.length →
            nodeAt fs2 ⟨(entryPath od e.name).abs, (entryPath od e.name).comps.take k⟩ =
              some FsNode.dir) ∧
        (isDirName e.name = false →
          fileContent fs2 (entryPath od e.name) = some e.content) := by
  obtain ⟨fs2, evs, hrun, hplaced, -, -⟩ := extract_master od entries [] fs hA hB
    (by simp) (ancestorsOk_spec hanc)
    (fun p hp => Or.inl (underEmpty_spec hund p hp)) (by simp)
  refine ⟨fs2, evs, hrun, ?_⟩
  intro e he
  have hpl := hplaced e (by simpa using he)
  constructor
  · intro hdir
    rw [PlacedAt, if_pos hdir] at hpl
    exact hpl
  · intro hfile
    rw [PlacedAt, if_neg (by simp [hfile])] at hpl
    rw [fileContent, hpl]

/-- C8 witness: a directory entry `d/` and a file entry `d/f.txt` are both
handled concretely — the directory chain exists and the file's content
sits at `dest/d/f.txt`. -/
theorem C8_entry_handling_witness :
    ((∀ e ∈ [(⟨"d/", []⟩ : ZEntry), ⟨"d/f.txt", [42]⟩], relName e.name = true) ∧
      ancestorsOk fxFsOneArch fxDest = true ∧
      underEmpty fxFsOneArch fxDest = true) ∧
    (∃ fs2 evs,
      extractEntries fxFsOneArch fxDest [⟨"d/", []⟩, ⟨"d/f.txt", [42]⟩] =
        (.ok (), fs2, evs) ∧
      ∀ e ∈ [(⟨"d/", []⟩ : ZEntry), ⟨"d/f.txt", [42]⟩],
        (isDirName e.name = true →
          ∀ k, k ≤ (entryPath fxDest e.name).comps.length →
            nodeAt fs2 ⟨(entryPath fxDest e.name).abs,
              (entryPath fxDest e.name).comps.take k⟩ = some FsNode.dir) ∧
        (isDirName e.name = false →
          fileContent fs2 (entryPath fxDest e.name) = some e.content)) :=
  ⟨⟨by decide, by decide, by decide⟩,
    C8_entry_handling fxFsOneArch fxDest [⟨"d/", []⟩, ⟨"d/f.txt", [42]⟩]
      (by decide) (by decide) (by decide) (by decide)⟩

/-- C8 counterexample: an archive whose single entry is named `/e` (no
trailing separator) extracts successfully, but the entry's content is NOT
written to `outputDir/<entry name>` — `Path::join` lets the absolute name
replace the output directory, the file lands at the absolute path `/e`,
and nothing appears under `dest`. -/
theorem C8_counterexample :
    (extract_files fxFsAbsEntry fxOut fxPriv fxDest).1 = .ok () ∧
    isDirName "/e" = false ∧
    fileContent (extract_files fxFsAbsEntry fxOut fxPriv fxDest).2.1
      (entryPath fxDest "/e") = none ∧
    fileContent (extract_files fxFsAbsEntry fxOut fxPriv fxDest).2.1 ⟨true, ["e"]⟩
      = some [42] := by
  decide

end Archrypto
